/-
Verification of the syncnet_python batch-processing core against its
specification: chunk planning, track-result parsing, quality evaluation,
batch orchestration, summary aggregation and output organization.

The Python sources are shallowly embedded: Python strings become `List Char`,
Python floats become `ℚ` (all comparisons and arithmetic in the embedded
fragment are exact on the values appearing here), Python ints become `ℤ`,
filesystem state becomes a map from paths to contents, and external
subprocess results become explicit environment records.
-/
import Mathlib

set_option maxRecDepth 8000

/- Batteries marks the rational-number operations `[irreducible]`, which
blocks `decide` on concrete rational computations; restore the default
reducibility for this development. -/
attribute [local semireducible] Rat.mul Rat.add Rat.sub Rat.inv

/-! ## Python string primitives

`str.strip`, `str.split`, substring containment (`in`), `int(...)` and
`float(...)` as used by the repository, modelled over `List Char`. -/

/-- The whitespace characters stripped by Python `str.strip()` (ASCII part). -/
def isPySpace (ch : Char) : Bool :=
  ch = ' ' || ch = '\t' || ch = '\n' || ch = '\r' || ch = '\x0b' || ch = '\x0c'

/-- ASCII decimal digit test. -/
def isDigitChar (ch : Char) : Bool :=
  '0' ≤ ch && ch ≤ '9'

/-- Python `str.strip()`: remove leading and trailing whitespace. -/
def pyStripL (l : List Char) : List Char :=
  ((l.dropWhile isPySpace).reverse.dropWhile isPySpace).reverse

/-- Worker for Python `str.split(sep)` with non-empty separator `h :: tl`:
leftmost-first, non-overlapping.  `fuel` bounds the recursion and is
instantiated with the length of the input, which always suffices. -/
def pySplitGo (h : Char) (tl : List Char) : Nat → List Char → List Char → List (List Char)
  | _, [], acc => [acc.reverse]
  | 0, l, acc => [acc.reverse ++ l]
  | fuel + 1, c :: rest, acc =>
    if (h :: tl).isPrefixOf (c :: rest) then
      acc.reverse :: pySplitGo h tl fuel (rest.drop tl.length) []
    else
      pySplitGo h tl fuel rest (c :: acc)

/-- Python `str.split(sep)` (Python rejects an empty separator; that case is
mapped to the identity split and never used). -/
def pySplitL (l sep : List Char) : List (List Char) :=
  match sep with
  | [] => [l]
  | h :: tl => pySplitGo h tl l.length l []

/-- Python substring containment `sub in s` (for non-empty `sub`, the string
splits into at least two pieces exactly when the substring occurs). -/
def containsSub (l sub : List Char) : Bool :=
  match sub with
  | [] => true
  | h :: tl => decide (2 ≤ (pySplitGo h tl l.length l []).length)

/-- Non-empty all-digit strings: the payload accepted by Python `int` after
sign handling. -/
def allDigits (l : List Char) : Bool :=
  !l.isEmpty && l.all isDigitChar

/-- Value of a decimal digit string. -/
def digitsVal (l : List Char) : ℕ :=
  l.foldl (fun acc ch => 10 * acc + (ch.toNat - 48)) 0

/-- Python `int(s)` on a string: surrounding whitespace, optional sign,
decimal digits.  `none` models `ValueError`. -/
def pyIntL (l0 : List Char) : Option ℤ :=
  match pyStripL l0 with
  | [] => none
  | c :: rest =>
    if c = '-' then
      if allDigits rest then some (-(digitsVal rest : ℤ)) else none
    else if c = '+' then
      if allDigits rest then some ((digitsVal rest : ℤ)) else none
    else
      if allDigits (c :: rest) then some ((digitsVal (c :: rest) : ℤ)) else none

/-- Exponent part of a Python float literal: optional sign, decimal digits. -/
def pyExpVal (l : List Char) : Option ℤ :=
  match l with
  | [] => none
  | c :: rest =>
    if c = '-' then
      if allDigits rest then some (-(digitsVal rest : ℤ)) else none
    else if c = '+' then
      if allDigits rest then some ((digitsVal rest : ℤ)) else none
    else
      if allDigits (c :: rest) then some ((digitsVal (c :: rest) : ℤ)) else none

/-- Unsigned Python float literal: `digits`, `digits.`, `.digits`,
`digits.digits`, each with an optional `e`/`E` exponent. -/
def pyFloatMag (l : List Char) : Option ℚ :=
  let ip := l.takeWhile isDigitChar
  let r1 := l.dropWhile isDigitChar
  let fr :=
    if r1.head? = some '.' then (r1.tail.takeWhile isDigitChar, r1.tail.dropWhile isDigitChar)
    else ([], r1)
  if ip.isEmpty ∧ fr.1.isEmpty then none
  else
    let mant : ℚ := (digitsVal ip : ℚ) + (digitsVal fr.1 : ℚ) / (10 : ℚ) ^ fr.1.length
    match fr.2 with
    | [] => some mant
    | c :: r3 =>
      if c = 'e' ∨ c = 'E' then (pyExpVal r3).map (fun ex => mant * (10 : ℚ) ^ ex)
      else none

/-- Python `float(s)` on a decimal literal: surrounding whitespace, optional
sign, mantissa with optional exponent.  `none` models `ValueError`
(the special forms `inf`/`nan` are outside the embedded fragment). -/
def pyFloatL (l0 : List Char) : Option ℚ :=
  match pyStripL l0 with
  | [] => none
  | c :: rest =>
    if c = '-' then (pyFloatMag rest).map (fun q => -q)
    else if c = '+' then pyFloatMag rest
    else pyFloatMag (c :: rest)

/-- `os.path.basename` for forward-slash paths. -/
def pyBasename (s : String) : String :=
  ⟨(pySplitL s.data ['/']).getLastD []⟩

/-! ## Track result parsing

`run_syncnet_pipeline` in `utils/process_long_video.py` (and, identically,
`process_single_chunk` in `utils/batch_process.py`) parses the scoring
tool's `offsets.txt`; `SyncNetFilter.process_single_video` in
`filter_videos_by_sync_score.py` uses a slightly different line parser. -/

/-- One parsed face track: `{offset, confidence}`. -/
structure TrackCandidate where
  offset : ℤ
  confidence : ℚ
  deriving DecidableEq

/-- Line parser of `run_syncnet_pipeline` / `process_single_chunk`:
strip the line, require the substring `TRACK`, split on `", "`, split the
first part on `": OFFSET "` and the second on `"CONF "`, then convert with
`int` and `float`; any failure (`ValueError`/`IndexError`) skips the line. -/
def parseTrackLinePLV (l0 : List Char) : Option TrackCandidate :=
  let l := pyStripL l0
  if l.isEmpty then none
  else if containsSub l "TRACK".data then
    let parts := pySplitL l [',', ' ']
    if 2 ≤ parts.length then
      let offsetPart := pySplitL (parts.getD 0 []) ": OFFSET ".data
      let confPart := pySplitL (parts.getD 1 []) "CONF ".data
      if 2 ≤ offsetPart.length ∧ 2 ≤ confPart.length then
        match pyIntL (offsetPart.getD 1 []), pyFloatL (confPart.getD 1 []) with
        | some ov, some cv => some ⟨ov, cv⟩
        | _, _ => none
      else none
    else none
  else none

/-- Content parser of `run_syncnet_pipeline` / `process_single_chunk`:
strip the file content, and if non-empty split into lines and collect every
line the line parser accepts. -/
def parseOffsetsPLV (content : List Char) : List TrackCandidate :=
  let stripped := pyStripL content
  if stripped.isEmpty then []
  else (pySplitL stripped ['\n']).filterMap parseTrackLinePLV

/-- Line parser of `SyncNetFilter.process_single_video`: require the
substrings `TRACK`, `OFFSET` and `CONF`, split on `": OFFSET "` and then on
`", CONF "`, convert with `int` and `float`; failures skip the line. -/
def parseTrackLineFilter (l : List Char) : Option TrackCandidate :=
  if containsSub l "TRACK".data && containsSub l "OFFSET".data && containsSub l "CONF".data then
    let parts := pySplitL l ": OFFSET ".data
    if 2 ≤ parts.length then
      let oc := pySplitL (parts.getD 1 []) ", CONF ".data
      if 2 ≤ oc.length then
        match pyIntL (oc.getD 0 []), pyFloatL (oc.getD 1 []) with
        | some ov, some cv => some ⟨ov, cv⟩
        | _, _ => none
      else none
    else none
  else none

/-- Content parser of `SyncNetFilter.process_single_video`: strip the
content, split into lines, collect accepted lines. -/
def parseOffsetsFilter (content : List Char) : List TrackCandidate :=
  (pySplitL (pyStripL content) ['\n']).filterMap parseTrackLineFilter

/-- `max(tracks, key=lambda x: x['confidence'])`: Python `max` keeps the
current maximum and replaces it only on a strictly greater key, hence
returns the earliest maximum. -/
def bestTrack : List TrackCandidate → Option TrackCandidate
  | [] => none
  | t :: ts => some (ts.foldl (fun best x => if best.confidence < x.confidence then x else best) t)

/-! ## Grammar of the track result file, from the specification

`TRACK <int>: OFFSET <signed-int>, CONF <float>` with the literal
separators `": OFFSET "` and `", CONF "`, surrounding whitespace tolerated
(spec sections 4.3 and 6).  This definition follows the specification's
words and is compared with the source-derived parser above. -/

/-- Consume a literal prefix. -/
def takeLit? (lit l : List Char) : Option (List Char) :=
  if lit.isPrefixOf l then some (l.drop lit.length) else none

/-- Optional leading minus sign of a signed integer token. -/
def splitSign (r : List Char) : Bool × List Char :=
  match r with
  | c :: rest => if c = '-' then (true, rest) else (false, c :: rest)
  | [] => (false, [])

/-- Value of a `<float>` token of the grammar: `digits` or `digits.digits`. -/
def specFloatVal? (l : List Char) : Option ℚ :=
  let ip := l.takeWhile isDigitChar
  let r1 := l.dropWhile isDigitChar
  if ip.isEmpty then none
  else if r1.isEmpty then some (digitsVal ip : ℚ)
  else if r1.head? = some '.' ∧ !r1.tail.isEmpty ∧ r1.tail.all isDigitChar then
    some ((digitsVal ip : ℚ) + (digitsVal r1.tail : ℚ) / (10 : ℚ) ^ r1.tail.length)
  else none

/-- Grammar-level line parser, following the specification's words: a line
matches the grammar exactly when this returns a candidate. -/
def specTrackLine? (l : List Char) : Option TrackCandidate :=
  match takeLit? "TRACK ".data (pyStripL l) with
  | none => none
  | some r1 =>
    let t := r1.takeWhile isDigitChar
    let r2 := r1.dropWhile isDigitChar
    if t.isEmpty then none
    else
      match takeLit? ": OFFSET ".data r2 with
      | none => none
      | some r3 =>
        let s := splitSign r3
        let o := s.2.takeWhile isDigitChar
        let r5 := s.2.dropWhile isDigitChar
        if o.isEmpty then none
        else
          match takeLit? ", CONF ".data r5 with
          | none => none
          | some r6 =>
            match specFloatVal? r6 with
            | none => none
            | some cv =>
              some ⟨if s.1 then -(digitsVal o : ℤ) else (digitsVal o : ℤ), cv⟩

/-! ## Chunk planner

`cut_video_chunks` in `utils/process_long_video.py`: starting at
`start_time = 0`, while `start_time < total_duration` emit
`[start_time, min(start_time + chunk_duration, total_duration))`, breaking
before emission when the duration falls below the hard-coded 5-second
minimum, and advancing by `chunk_duration - overlap`.  The Python loop has
no termination guarantee, so the embedding carries explicit fuel: `none`
means the fuel was exhausted with the loop still running. -/

structure Chunk where
  index : ℕ
  start : ℚ
  stop : ℚ
  deriving DecidableEq

def cutChunksGo (total : ℚ) (chunkDuration overlap : ℤ) :
    ℕ → ℚ → ℕ → List Chunk → Option (List Chunk)
  | 0, _, _, _ => none
  | fuel + 1, startTime, chunkNum, acc =>
    if startTime < total then
      let endTime := min (startTime + (chunkDuration : ℚ)) total
      if endTime - startTime < 5 then
        some acc
      else
        cutChunksGo total chunkDuration overlap fuel
          (startTime + ((chunkDuration : ℚ) - (overlap : ℚ))) (chunkNum + 1)
          (acc ++ [⟨chunkNum, startTime, endTime⟩])
    else
      some acc

/-- The planning loop of `cut_video_chunks` (the surrounding `ffmpeg`
invocations are external effects outside the planner's result). -/
def cutVideoChunks (fuel : ℕ) (total : ℚ) (chunkDuration overlap : ℤ) : Option (List Chunk) :=
  cutChunksGo total chunkDuration overlap fuel 0 0 []

/-- Fuel sufficient for the planner to finish on valid inputs. -/
def plannerFuel (total : ℚ) (chunkDuration overlap : ℤ) : ℕ :=
  (⌈total / ((chunkDuration : ℚ) - (overlap : ℚ))⌉).toNat + 1

/-- The planner never terminates on this input, for any amount of fuel. -/
def plannerDiverges (total : ℚ) (chunkDuration overlap : ℤ) : Prop :=
  ∀ fuel, cutVideoChunks fuel total chunkDuration overlap = none

/-- Chunk `i` as described by the specification's planner algorithm:
start `i * (chunk_length - overlap)`, stop clipped at the total duration. -/
def specChunk (total : ℚ) (chunkDuration overlap : ℤ) (i : ℕ) : Chunk :=
  let t : ℚ := (i : ℚ) * ((chunkDuration : ℚ) - (overlap : ℚ))
  ⟨i, t, min (t + (chunkDuration : ℚ)) total⟩

/-- Whether the specification's planner keeps chunk `i`: its start is
before the end of the video and its clipped duration is at least the
5-second minimum. -/
def specKeep (total : ℚ) (chunkDuration overlap : ℤ) (i : ℕ) : Bool :=
  let t : ℚ := (i : ℚ) * ((chunkDuration : ℚ) - (overlap : ℚ))
  decide (t < total) && decide (5 ≤ min (t + (chunkDuration : ℚ)) total - t)

/-! ## Quality evaluation

`SyncNetFilter.process_single_video` (step "Determine quality") in
`filter_videos_by_sync_score.py`.  The embedded string formatting mirrors
the f-strings: `{confidence:.3f}` (fixed three decimals, correctly rounded
with ties to even) and `{self.min_confidence}` (shortest exact decimal
rendering of the float value, as `repr` produces for these values). -/

/-- Left-pad a decimal string with zeros to width `k`. -/
def padZeros (k : ℕ) (s : String) : String :=
  ⟨List.replicate (k - s.length) '0' ++ s.data⟩

/-- Round a non-negative rational to the nearest natural, ties to even. -/
def roundHalfEvenNN (x : ℚ) : ℕ :=
  let f : ℕ := x.num.toNat / x.den
  let r : ℚ := x - (f : ℚ)
  if r < 1/2 then f
  else if 1/2 < r then f + 1
  else if f % 2 = 0 then f else f + 1

/-- Python `f"{x:.3f}"` on the embedded value. -/
def fmtFix3 (q : ℚ) : String :=
  let sign := if q < 0 then "-" else ""
  let m := roundHalfEvenNN (|q| * 1000)
  sign ++ toString (m / 1000) ++ "." ++ padZeros 3 (toString (m % 1000))

/-- Least `k ≤ 17` such that `q * 10^k` is an integer, when one exists. -/
def minDecExp (q : ℚ) : Option ℕ :=
  (List.range 18).find? (fun k => decide ((q * (10 : ℚ) ^ k).den = 1))

/-- Python `f"{x}"` / `repr(x)` for a non-negative float whose value is a
short exact decimal: minimal digits, with `.0` for integers. -/
def pyFloatReprNN (q : ℚ) : String :=
  match minDecExp q with
  | some 0 => toString q.num ++ ".0"
  | some k =>
    let m := (q * (10 : ℚ) ^ k).num.toNat
    toString (m / 10 ^ k) ++ "." ++ padZeros k (toString (m % 10 ^ k))
  | none => toString q.num ++ "/" ++ toString q.den

/-- Python `f"{x}"` for a float value (sign plus the non-negative form). -/
def pyFloatRepr (q : ℚ) : String :=
  if q < 0 then "-" ++ pyFloatReprNN (-q) else pyFloatReprNN q

/-- `{passed, reasons}`: the quality verdict of a processed video. -/
structure QualityVerdict where
  passed : Bool
  reasons : List String
  deriving DecidableEq

/-- The quality decision of `SyncNetFilter.process_single_video`:
`passes_quality = passes_confidence and passes_offset`, with the reason
list built confidence-check first, offset-check second. -/
def evaluateQuality (confidence : ℚ) (offset : ℤ) (minConfidence : ℚ) (maxAbsOffset : ℤ) :
    QualityVerdict :=
  let absOffset : ℤ := |offset|
  let passesConfidence : Bool := decide (minConfidence ≤ confidence)
  let passesOffset : Bool := decide (absOffset ≤ maxAbsOffset)
  { passed := passesConfidence && passesOffset
    reasons :=
      (if passesConfidence then [] else
        ["Low confidence: " ++ fmtFix3 confidence ++ " < " ++ pyFloatRepr minConfidence])
      ++ (if passesOffset then [] else
        ["High offset: " ++ toString absOffset ++ " > " ++ toString maxAbsOffset]) }

/-! ## Job state and the three pipeline drivers

The spec's job states map to the source's status strings:
`PipelineStageFailure` ↔ `'failed'`/`'exception'`, `MissingArtifact` ↔
`'no_faces'`, and `Succeeded` ↔ `'success'`. -/

inductive JobStatus where
  | failed
  | noFaces
  | success
  | exception
  deriving DecidableEq

/-- Python `str.endswith`. -/
def pyEndsWith (s suffix : String) : Bool :=
  suffix.data.isSuffixOf s.data

/-! ### `SyncNetFilter.process_single_video` (filter_videos_by_sync_score.py)

The external tools are modelled by an environment recording each stage's
exit code, captured stderr, and the artifacts it leaves on disk. -/

structure VideoEnv where
  pipelineRet : ℤ
  pipelineStderr : String
  tracksFileExists : Bool
  syncnetRet : ℤ
  syncnetStderr : String
  offsetsContent : Option String
  vizRet : ℤ
  deriving DecidableEq

structure VideoResult where
  status : JobStatus
  error : Option String
  message : Option String
  offset : Option ℤ
  confidence : Option ℚ
  passesQuality : Option Bool
  qualityReasons : Option (List String)
  visualizationCreated : Option Bool
  deriving DecidableEq

/-- The candidates parsed from the scoring stage's `offsets.txt`
(`[]` when the file is absent). -/
def videoTracks (env : VideoEnv) : List TrackCandidate :=
  match env.offsetsContent with
  | none => []
  | some content => parseOffsetsFilter content.data

def processSingleVideo (minConfidence : ℚ) (maxAbsOffset : ℤ) (env : VideoEnv) : VideoResult :=
  if env.pipelineRet ≠ 0 then
    ⟨.failed, some ("Pipeline failed: " ++ env.pipelineStderr), none, none, none, none, none, none⟩
  else if !env.tracksFileExists then
    ⟨.noFaces, none, some "No face tracks detected", none, none, none, none, none⟩
  else if env.syncnetRet ≠ 0 then
    ⟨.failed, some ("SyncNet failed: " ++ env.syncnetStderr), none, none, none, none, none, none⟩
  else
    match bestTrack (videoTracks env) with
    | none =>
      ⟨.failed, some "Could not parse SyncNet results", none, none, none, none, none, none⟩
    | some best =>
      let verdict := evaluateQuality best.confidence best.offset minConfidence maxAbsOffset
      ⟨.success, none, none, some best.offset, some best.confidence,
        some verdict.passed, some verdict.reasons, some (decide (env.vizRet = 0))⟩

/-! ### `process_single_chunk` / `batch_process_chunks` (utils/batch_process.py) -/

structure ChunkEnv where
  referenceName : String
  pipelineRet : ℤ
  pipelineStderr : String
  cropListing : List String
  syncnetRet : ℤ
  syncnetStderr : String
  offsetsContent : Option String
  deriving DecidableEq

structure ChunkResult where
  referenceName : String
  status : JobStatus
  error : Option String
  message : Option String
  faceTracks : Option ℕ
  offset : Option ℤ
  confidence : Option ℚ
  deriving DecidableEq

def processSingleChunk (env : ChunkEnv) : ChunkResult :=
  if env.pipelineRet ≠ 0 then
    ⟨env.referenceName, .failed, some ("Pipeline failed: " ++ env.pipelineStderr),
      none, none, none, none⟩
  else
    let cropFiles := env.cropListing.filter (fun f => pyEndsWith f ".avi")
    if cropFiles.isEmpty then
      ⟨env.referenceName, .noFaces, none, some "No face tracks found", none, none, none⟩
    else if env.syncnetRet ≠ 0 then
      ⟨env.referenceName, .failed, some ("SyncNet failed: " ++ env.syncnetStderr),
        none, some cropFiles.length, none, none⟩
    else
      let tracks :=
        match env.offsetsContent with
        | none => []
        | some c => parseOffsetsPLV c.data
      match bestTrack tracks with
      | none =>
        ⟨env.referenceName, .success, none, none, some cropFiles.length, none, none⟩
      | some best =>
        ⟨env.referenceName, .success, none, none, some cropFiles.length,
          some best.offset, some best.confidence⟩

/-- One result record per submitted job (the environment model is
sequential; the source collects the same records in completion order). -/
def batchResults (envs : List ChunkEnv) : List ChunkResult :=
  envs.map processSingleChunk

structure BatchSummary where
  totalChunks : ℕ
  successful : ℕ
  noFaces : ℕ
  failed : ℕ
  results : List ChunkResult
  deriving DecidableEq

/-- The summary persisted by `batch_process_chunks` (counts plus records;
the remaining JSON fields carry no job information). -/
def batchProcessChunks (envs : List ChunkEnv) : BatchSummary :=
  let results := batchResults envs
  { totalChunks := envs.length
    successful := results.countP (fun r => decide (r.status = .success))
    noFaces := results.countP (fun r => decide (r.status = .noFaces))
    failed := results.countP
      (fun r => decide (r.status = .failed) || decide (r.status = .exception))
    results := results }

/-! ### `run_syncnet_pipeline` / `process_long_video` (utils/process_long_video.py) -/

structure PlvEnv where
  pipelineRet : ℤ
  cropListing : List String
  syncnetRet : ℤ
  vizRet : ℤ
  offsetsContent : Option String
  deriving DecidableEq

/-- Outcome of `run_syncnet_pipeline`: `failed` models the `None` return,
`success` carries the parsed best offset/confidence when present. -/
inductive PlvPipeOut where
  | failed
  | noFaces
  | success (offset : Option ℤ) (confidence : Option ℚ)
  deriving DecidableEq

def runSyncnetPipeline (env : PlvEnv) : PlvPipeOut :=
  if env.pipelineRet ≠ 0 then .failed
  else
    let cropFiles := env.cropListing.filter (fun f => pyEndsWith f ".avi")
    if cropFiles.isEmpty then .noFaces
    else if env.syncnetRet ≠ 0 then .failed
    else
      let tracks :=
        match env.offsetsContent with
        | none => []
        | some c => parseOffsetsPLV c.data
      match bestTrack tracks with
      | none => .success none none
      | some best => .success (some best.offset) (some best.confidence)

inductive QualityStatus where
  | accepted
  | rejected
  deriving DecidableEq

structure PlvChunkRecord where
  reference : String
  status : JobStatus
  offset : Option ℤ
  confidence : Option ℚ
  qualityStatus : QualityStatus
  rejectionReason : List String
  deriving DecidableEq

/-- The per-chunk bookkeeping of `process_long_video`'s main loop: a `None`
pipeline result is dropped (`if syncnet_result:`); a success is classified
with `offset = result.get("offset", float("inf"))` and
`confidence = result.get("confidence", 0.0)`; a no-faces result is
rejected outright. -/
def classifyPlvChunk (minConfidence : ℚ) (maxAbsOffset : ℤ) (filterLowQuality : Bool)
    (reference : String) (out : PlvPipeOut) : Option PlvChunkRecord :=
  match out with
  | .failed => none
  | .noFaces => some ⟨reference, .noFaces, none, none, .rejected, ["no_faces_detected"]⟩
  | .success off conf =>
    let confidence := conf.getD 0
    let isGoodConfidence : Bool := decide (minConfidence ≤ confidence)
    -- a missing offset defaults to `float("inf")`, which exceeds every
    -- finite `max_abs_offset`
    let isGoodOffset : Bool :=
      match off with
      | none => false
      | some o => decide (|o| ≤ maxAbsOffset)
    if filterLowQuality && (!isGoodConfidence || !isGoodOffset) then
      let reasons :=
        (if isGoodConfidence then [] else
          ["low_confidence (" ++ fmtFix3 confidence ++ " < " ++ pyFloatRepr minConfidence ++ ")"])
        ++ (if isGoodOffset then [] else
          ["high_offset (" ++ (match off with | none => "inf" | some o => toString |o|) ++
            " > " ++ toString maxAbsOffset ++ ")"])
      some ⟨reference, .success, off, conf, .rejected, reasons⟩
    else
      some ⟨reference, .success, off, conf, .accepted, []⟩

structure PlvSummary where
  totalChunks : ℕ
  successfulAnalysis : ℕ
  noFacesChunks : ℕ
  acceptedChunks : List String
  rejectedChunks : List (String × List String)
  results : List PlvChunkRecord
  deriving DecidableEq

/-- The summary persisted by `process_long_video`: note that the keys
`accepted_chunks`/`rejected_chunks` are assigned twice in the source dict
literal, so their persisted values are the reference/reason lists, and
chunks whose pipeline result was `None` appear nowhere. -/
def processLongVideo (minConfidence : ℚ) (maxAbsOffset : ℤ) (filterLowQuality : Bool)
    (envs : List (String × PlvEnv)) : PlvSummary :=
  let records := envs.filterMap
    (fun e => classifyPlvChunk minConfidence maxAbsOffset filterLowQuality e.1
      (runSyncnetPipeline e.2))
  { totalChunks := envs.length
    successfulAnalysis := records.countP (fun r => decide (r.status = .success))
    noFacesChunks := records.countP (fun r => decide (r.status = .noFaces))
    acceptedChunks :=
      (records.filter (fun r => decide (r.qualityStatus = .accepted))).map (·.reference)
    rejectedChunks :=
      (records.filter (fun r => decide (r.qualityStatus = .rejected))).map
        (fun r => (r.reference, r.rejectionReason))
    results := records }

/-! ## Output organization (filesystem model)

A filesystem is a map from path to file content (contents abstracted to
`ℕ`); `shutil.copy2` writes the source's content at the destination path,
overwriting.  `guarded` distinguishes the `DirectoryPreparer` copies (which
test `input.exists()` first) from the unconditional copies of
`process_long_video`. -/

def FileSys := String → Option ℕ

def copyStep (guarded : Bool) (fs : FileSys) (op : String × String) : FileSys :=
  fun p =>
    if p = op.2 then
      match fs op.1 with
      | some v => some v
      | none => if guarded then fs p else none
    else fs p

def runCopies (guarded : Bool) (ops : List (String × String)) (fs : FileSys) : FileSys :=
  ops.foldl (copyStep guarded) fs

/-- The value a sequence of copies writes at `p`, reading every source from
the initial filesystem `fs0` (meaningful when no source is also a
destination); `none` means `p` is never written. -/
def lastWriteVal (guarded : Bool) (ops : List (String × String)) (fs0 : FileSys) (p : String) :
    Option (Option ℕ) :=
  match ops with
  | [] => none
  | op :: rest =>
    match lastWriteVal guarded rest fs0 p with
    | some v => some v
    | none =>
      if p = op.2 then
        match fs0 op.1 with
        | some v => some (some v)
        | none => if guarded then none else some none
      else none

/-- `DirectoryPreparer._process_chunk_normal_video`: copy
`input_dir/<chunk>.mp4` to `video_normal/<video_id>_<chunk>.mp4`
(destination name from `_get_output_name`). -/
def processChunkNormalVideo (inputDir videoNormalDir videoId : String)
    (fs : FileSys) (chunkName : String) : FileSys :=
  let inputVideo := inputDir ++ "/" ++ chunkName ++ ".mp4"
  let outputName := videoId ++ "_" ++ chunkName
  let outputVideo := videoNormalDir ++ "/" ++ outputName ++ ".mp4"
  copyStep true fs (inputVideo, outputVideo)

def prepareNormalVideos (inputDir videoNormalDir videoId : String)
    (chunks : List String) (fs : FileSys) : FileSys :=
  chunks.foldl (processChunkNormalVideo inputDir videoNormalDir videoId) fs

/-- The copy operations performed by `prepareNormalVideos`. -/
def dpNormalOps (inputDir videoNormalDir videoId : String) (chunks : List String) :
    List (String × String) :=
  chunks.map (fun ch =>
    (inputDir ++ "/" ++ ch ++ ".mp4", videoNormalDir ++ "/" ++ (videoId ++ "_" ++ ch) ++ ".mp4"))

/-- One accepted-chunk video copy of `process_long_video`:
destination `filtered_chunks/<basename(src)>`. -/
def plvCopyOp (filteredChunksDir : String) (src : String) : String × String :=
  (src, filteredChunksDir ++ "/" ++ pyBasename src)

/-- The accepted-chunk copy loop of `process_long_video`. -/
def plvCopyAccepted (filteredChunksDir : String) (accepted : List String) (fs : FileSys) :
    FileSys :=
  accepted.foldl (fun fs src => copyStep false fs (plvCopyOp filteredChunksDir src)) fs

/-! ## The two preset tables -/

/-- `FILTER_PRESETS` in `utils/quality_presets.py`:
name to `(min_confidence, max_abs_offset)`. -/
def FILTER_PRESETS : String → Option (ℚ × ℤ) := fun name =>
  if name = "strict" then some (6, 2)
  else if name = "high" then some (4, 5)
  else if name = "medium" then some (5/2, 8)
  else if name = "relaxed" then some (3/2, 12)
  else if name = "none" then some (0, 50)
  else none

/-- The `presets` dict in `filter_videos_by_sync_score.main`. -/
def filterScriptPresets : String → Option (ℚ × ℤ) := fun name =>
  if name = "strict" then some (8, 2)
  else if name = "high" then some (6, 3)
  else if name = "medium" then some (4, 5)
  else if name = "relaxed" then some (2, 8)
  else none


/-! ## Concrete batches used in the witnesses and counterexamples -/

/-- A chunk whose pipeline, scoring and parse all succeed. -/
def plvDemoGood : PlvEnv := ⟨0, ["00000.avi"], 0, 0, some "TRACK 0: OFFSET -1, CONF 7.183"⟩

/-- A chunk whose preprocessing stage exits with code 1. -/
def plvDemoFail : PlvEnv := ⟨1, [], 0, 0, none⟩

/-- A five-job batch for `batch_process_chunks`: three successes, one
pipeline failure (exit code 1) at index 2, one no-faces job at index 3. -/
def batchDemoEnvs : List ChunkEnv :=
  [⟨"chunk_000", 0, "", ["00000.avi"], 0, "", some "TRACK 0: OFFSET -1, CONF 7.183"⟩,
   ⟨"chunk_001", 0, "", ["00000.avi"], 0, "", some "TRACK 0: OFFSET 0, CONF 10.0"⟩,
   ⟨"chunk_002", 1, "boom", ["00000.avi"], 0, "", none⟩,
   ⟨"chunk_003", 0, "", [], 0, "", none⟩,
   ⟨"chunk_004", 0, "", ["00000.avi"], 0, "", some "TRACK 0: OFFSET 2, CONF 3.5"⟩]

/-- A one-file filesystem for the organizer witness. -/
def organizerDemoFs : FileSys := fun p => if p = "chunks/chunk_000.mp4" then some 7 else none

/-! ## Planner lemmas -/

/-- Loop invariant of `cut_video_chunks`: entering iteration `k` (start
time `k * (chunk_length - overlap)`) with accumulator `acc`, a completed
run extends `acc` with exactly the specification's chunks `k, …, N-1`,
where `N` is the first discarded index. -/
lemma cutChunksGo_char (total : ℚ) (c o : ℤ) :
    ∀ (fuel k : ℕ) (acc L : List Chunk),
      cutChunksGo total c o fuel ((k : ℚ) * ((c : ℚ) - (o : ℚ))) k acc = some L →
      ∃ N, k ≤ N ∧ L = acc ++ (List.range' k (N - k)).map (specChunk total c o) ∧
        (∀ i, k ≤ i → i < N → specKeep total c o i = true) ∧
        specKeep total c o N = false := by
  intro fuel
  induction fuel with
  | zero => intro k acc L h; simp [cutChunksGo] at h
  | succ fuel ih =>
    intro k acc L h
    rw [cutChunksGo] at h
    by_cases ht : (k : ℚ) * ((c : ℚ) - (o : ℚ)) < total
    · rw [if_pos ht] at h
      by_cases hd :
          min ((k : ℚ) * ((c : ℚ) - (o : ℚ)) + (c : ℚ)) total -
            (k : ℚ) * ((c : ℚ) - (o : ℚ)) < 5
      · rw [if_pos hd] at h
        refine ⟨k, le_refl k, ?_, ?_, ?_⟩
        · cases h; simp
        · intro i hki hik; omega
        · simp only [specKeep, Bool.and_eq_false_imp, decide_eq_true_eq,
            decide_eq_false_iff_not]
          intro _; linarith
      · rw [if_neg hd] at h
        have hrw : (k : ℚ) * ((c : ℚ) - (o : ℚ)) + ((c : ℚ) - (o : ℚ)) =
            ((k + 1 : ℕ) : ℚ) * ((c : ℚ) - (o : ℚ)) := by push_cast; ring
        rw [hrw] at h
        obtain ⟨N, hkN, hL, hkeep, hstop⟩ := ih (k + 1) _ L h
        refine ⟨N, by omega, ?_, ?_, hstop⟩
        · rw [hL]
          have hrange : List.range' k (N - k) = k :: List.range' (k + 1) (N - (k + 1)) := by
            have : N - k = (N - (k + 1)) + 1 := by omega
            rw [this, List.range'_succ]
          rw [hrange]
          simp [specChunk]
        · intro i hki hik
          rcases Nat.eq_or_lt_of_le hki with hik' | hik'
          · subst hik'
            simp only [specKeep, Bool.and_eq_true, decide_eq_true_eq]
            exact ⟨ht, by linarith⟩
          · exact hkeep i hik' hik
    · rw [if_neg ht] at h
      refine ⟨k, le_refl k, ?_, ?_, ?_⟩
      · cases h; simp
      · intro i hki hik; omega
      · simp only [specKeep, Bool.and_eq_false_imp, decide_eq_true_eq,
          decide_eq_false_iff_not]
        intro h5; exact absurd h5 ht

/-- With `total ≤ (k + fuel) * step` remaining fuel, the loop finishes. -/
lemma cutChunksGo_term (total : ℚ) (c o : ℤ) :
    ∀ (fuel k : ℕ) (acc : List Chunk),
      total ≤ ((k : ℚ) + (fuel : ℚ)) * ((c : ℚ) - (o : ℚ)) →
      (cutChunksGo total c o (fuel + 1) ((k : ℚ) * ((c : ℚ) - (o : ℚ))) k acc).isSome := by
  intro fuel
  induction fuel with
  | zero =>
    intro k acc h
    rw [cutChunksGo]
    have : ¬ (k : ℚ) * ((c : ℚ) - (o : ℚ)) < total := by
      push_neg
      calc total ≤ ((k : ℚ) + 0) * ((c : ℚ) - (o : ℚ)) := h
        _ = (k : ℚ) * ((c : ℚ) - (o : ℚ)) := by ring
    rw [if_neg this]
    rfl
  | succ fuel ih =>
    intro k acc h
    rw [cutChunksGo]
    by_cases ht : (k : ℚ) * ((c : ℚ) - (o : ℚ)) < total
    · rw [if_pos ht]
      by_cases hd :
          min ((k : ℚ) * ((c : ℚ) - (o : ℚ)) + (c : ℚ)) total -
            (k : ℚ) * ((c : ℚ) - (o : ℚ)) < 5
      · rw [if_pos hd]; rfl
      · rw [if_neg hd]
        have hrw : (k : ℚ) * ((c : ℚ) - (o : ℚ)) + ((c : ℚ) - (o : ℚ)) =
            ((k + 1 : ℕ) : ℚ) * ((c : ℚ) - (o : ℚ)) := by push_cast; ring
        rw [hrw]
        apply ih (k + 1) _ _
        calc total ≤ ((k : ℚ) + ((fuel : ℚ) + 1)) * ((c : ℚ) - (o : ℚ)) := by
              push_cast at h ⊢; linarith [h]
          _ = (((k + 1 : ℕ) : ℚ) + (fuel : ℚ)) * ((c : ℚ) - (o : ℚ)) := by push_cast; ring
    · rw [if_neg ht]; rfl

/-- With a non-positive step, a start time that is not past zero, a chunk
length of at least the 5-second minimum and a total duration of at least
5 seconds, the loop never exits. -/
lemma cutChunksGo_div (total : ℚ) (c o : ℤ)
    (hstep : (c : ℚ) - (o : ℚ) ≤ 0) (hc : (5 : ℚ) ≤ (c : ℚ)) (ht5 : (5 : ℚ) ≤ total) :
    ∀ (fuel : ℕ) (t : ℚ), t ≤ 0 → ∀ (k : ℕ) (acc : List Chunk),
      cutChunksGo total c o fuel t k acc = none := by
  intro fuel
  induction fuel with
  | zero => intro t _ k acc; rfl
  | succ fuel ih =>
    intro t htle k acc
    rw [cutChunksGo]
    have ht : t < total := by linarith
    rw [if_pos ht]
    have hd : ¬ min (t + (c : ℚ)) total - t < 5 := by
      push_neg
      have : 5 + t ≤ min (t + (c : ℚ)) total := le_min (by linarith) (by linarith)
      linarith
    rw [if_neg hd]
    exact ih (t + ((c : ℚ) - (o : ℚ))) (by linarith) (k + 1) _

/-! ## Batch lemmas -/

/-- Every record produced by `process_single_chunk` carries one of the
three reachable terminal statuses. -/
lemma processSingleChunk_status (env : ChunkEnv) :
    (processSingleChunk env).status = .success ∨
    (processSingleChunk env).status = .noFaces ∨
    (processSingleChunk env).status = .failed := by
  unfold processSingleChunk
  dsimp only
  repeat' split
  all_goals simp

/-- Per-record statuses partition the record list into the summary's three
counting categories. -/
lemma countP_status_partition (l : List ChunkResult)
    (h : ∀ r ∈ l, r.status = .success ∨ r.status = .noFaces ∨ r.status = .failed) :
    l.countP (fun r => decide (r.status = .success)) +
      l.countP (fun r => decide (r.status = .noFaces)) +
      l.countP (fun r => decide (r.status = .failed) || decide (r.status = .exception)) =
      l.length := by
  induction l with
  | nil => simp
  | cons r t ih =>
    have hr := h r (List.mem_cons_self r t)
    have ht := ih (fun x hx => h x (List.mem_cons_of_mem r hx))
    simp only [List.countP_cons, List.length_cons]
    rcases hr with h1 | h1 | h1 <;> simp [h1] <;> omega

/-! ## First-maximum property of `bestTrack` -/

lemma foldl_best_spec :
    ∀ (ts : List TrackCandidate) (t : TrackCandidate),
      (ts.foldl (fun best x => if best.confidence < x.confidence then x else best) t = t ∧
        ∀ x ∈ ts, x.confidence ≤ t.confidence) ∨
      (∃ pre x post, ts = pre ++ x :: post ∧
        ts.foldl (fun best x => if best.confidence < x.confidence then x else best) t = x ∧
        t.confidence < x.confidence ∧
        (∀ y ∈ pre, y.confidence < x.confidence) ∧
        (∀ y ∈ post, y.confidence ≤ x.confidence)) := by
  intro ts
  induction ts with
  | nil => intro t; left; exact ⟨rfl, by simp⟩
  | cons z ts ih =>
    intro t
    rw [List.foldl_cons]
    by_cases hz : t.confidence < z.confidence
    · rw [if_pos hz]
      rcases ih z with ⟨heq, hall⟩ | ⟨pre, x, post, hts, heq, hlt, hpre, hpost⟩
      · right
        exact ⟨[], z, ts, by simp, heq, hz, by simp, hall⟩
      · right
        refine ⟨z :: pre, x, post, by rw [hts, List.cons_append], heq, lt_trans hz hlt, ?_, hpost⟩
        intro y hy
        rcases List.mem_cons.mp hy with hy | hy
        · rw [hy]; exact hlt
        · exact hpre y hy
    · rw [if_neg hz]
      have hzle := not_lt.mp hz
      rcases ih t with ⟨heq, hall⟩ | ⟨pre, x, post, hts, heq, hlt, hpre, hpost⟩
      · left
        refine ⟨heq, ?_⟩
        intro y hy
        rcases List.mem_cons.mp hy with hy | hy
        · rw [hy]; exact hzle
        · exact hall y hy
      · right
        refine ⟨z :: pre, x, post, by rw [hts, List.cons_append], heq, hlt, ?_, hpost⟩
        intro y hy
        rcases List.mem_cons.mp hy with hy | hy
        · rw [hy]; exact lt_of_le_of_lt hzle hlt
        · exact hpre y hy

/-- `bestTrack` returns the earliest candidate of maximal confidence:
every candidate before it is strictly worse, and none beats it. -/
lemma bestTrack_first_max (l : List TrackCandidate) (cand : TrackCandidate)
    (h : bestTrack l = some cand) :
    ∃ pre post, l = pre ++ cand :: post ∧
      (∀ y ∈ pre, y.confidence < cand.confidence) ∧
      (∀ y ∈ l, y.confidence ≤ cand.confidence) := by
  match l, h with
  | t :: ts, h =>
    rw [bestTrack] at h
    have hcand := Option.some.inj h
    rcases foldl_best_spec ts t with ⟨heq, hall⟩ | ⟨pre, x, post, hts, heq, hlt, hpre, hpost⟩
    · refine ⟨[], ts, ?_, by simp, ?_⟩
      · rw [← hcand, heq]; rfl
      · intro y hy
        rcases List.mem_cons.mp hy with hy | hy
        · rw [hy, ← hcand, heq]
        · rw [← hcand, heq]; exact hall y hy
    · have hx : cand = x := by rw [← hcand, heq]
      subst hx
      refine ⟨t :: pre, post, by rw [hts, List.cons_append], ?_, ?_⟩
      · intro y hy
        rcases List.mem_cons.mp hy with hy | hy
        · rw [hy]; exact hlt
        · exact hpre y hy
      · intro y hy
        rcases List.mem_cons.mp hy with hy | hy
        · rw [hy]; exact le_of_lt hlt
        · rw [hts] at hy
          rcases List.mem_append.mp hy with hy | hy
          · exact le_of_lt (hpre y hy)
          · rcases List.mem_cons.mp hy with hy | hy
            · rw [hy]
            · exact hpost y hy

/-! ## Filesystem lemmas: last-write semantics and idempotence -/

lemma lastWriteVal_congr (guarded : Bool) (ops : List (String × String)) (f g : FileSys)
    (p : String) (h : ∀ op ∈ ops, f op.1 = g op.1) :
    lastWriteVal guarded ops f p = lastWriteVal guarded ops g p := by
  induction ops with
  | nil => rfl
  | cons op rest ih =>
    rw [lastWriteVal, lastWriteVal,
      ih (fun op2 h2 => h op2 (List.mem_cons_of_mem op h2)),
      h op (List.mem_cons_self op rest)]

lemma lastWriteVal_none (guarded : Bool) (ops : List (String × String)) (fs : FileSys)
    (p : String) (h : ∀ op ∈ ops, p ≠ op.2) :
    lastWriteVal guarded ops fs p = none := by
  induction ops with
  | nil => rfl
  | cons op rest ih =>
    rw [lastWriteVal, ih (fun op2 h2 => h op2 (List.mem_cons_of_mem op h2)),
      if_neg (h op (List.mem_cons_self op rest))]

lemma runCopies_not_dst (guarded : Bool) (ops : List (String × String)) (p : String)
    (h : ∀ op ∈ ops, p ≠ op.2) :
    ∀ fs : FileSys, runCopies guarded ops fs p = fs p := by
  induction ops with
  | nil => intro fs; rfl
  | cons op rest ih =>
    intro fs
    show runCopies guarded rest (copyStep guarded fs op) p = fs p
    rw [ih (fun op2 h2 => h op2 (List.mem_cons_of_mem op h2))]
    unfold copyStep
    rw [if_neg (h op (List.mem_cons_self op rest))]

/-- When no copy's source path is any copy's destination path, the run's
effect at each path is the last write at that path, with all sources read
from the initial filesystem. -/
lemma runCopies_eval (guarded : Bool) (ops : List (String × String))
    (hdisj : ∀ op ∈ ops, ∀ op2 ∈ ops, op.1 ≠ op2.2) :
    ∀ (fs : FileSys) (p : String),
      runCopies guarded ops fs p = (lastWriteVal guarded ops fs p).getD (fs p) := by
  induction ops with
  | nil => intro fs p; rfl
  | cons op rest ih =>
    intro fs p
    have hdisj' : ∀ op1 ∈ rest, ∀ op2 ∈ rest, op1.1 ≠ op2.2 := fun op1 h1 op2 h2 =>
      hdisj op1 (List.mem_cons_of_mem op h1) op2 (List.mem_cons_of_mem op h2)
    show runCopies guarded rest (copyStep guarded fs op) p = _
    rw [ih hdisj' (copyStep guarded fs op) p]
    have hsrc : ∀ op2 ∈ rest, copyStep guarded fs op op2.1 = fs op2.1 := by
      intro op2 h2
      unfold copyStep
      rw [if_neg (hdisj op2 (List.mem_cons_of_mem op h2) op (List.mem_cons_self op rest))]
    rw [lastWriteVal_congr guarded rest (copyStep guarded fs op) fs p hsrc]
    rw [lastWriteVal]
    cases hlw : lastWriteVal guarded rest fs p with
    | some v => rfl
    | none =>
      unfold copyStep
      by_cases hp : p = op.2
      · rw [if_pos hp, if_pos hp]
        cases hfs : fs op.1 with
        | some v => rfl
        | none => cases guarded <;> rfl
      · rw [if_neg hp, if_neg hp]

/-- Idempotence of a copy run whose sources and destinations are disjoint:
a second identical run rewrites every destination with the same value. -/
lemma runCopies_idem (guarded : Bool) (ops : List (String × String))
    (hdisj : ∀ op ∈ ops, ∀ op2 ∈ ops, op.1 ≠ op2.2) (fs : FileSys) :
    runCopies guarded ops (runCopies guarded ops fs) = runCopies guarded ops fs := by
  funext p
  have hG : ∀ op ∈ ops, runCopies guarded ops fs op.1 = fs op.1 := by
    intro op hop
    exact runCopies_not_dst guarded ops op.1 (fun op2 h2 => hdisj op hop op2 h2) fs
  rw [runCopies_eval guarded ops hdisj (runCopies guarded ops fs) p,
    lastWriteVal_congr guarded ops (runCopies guarded ops fs) fs p hG,
    runCopies_eval guarded ops hdisj fs p]
  cases hlw : lastWriteVal guarded ops fs p with
  | some v => rfl
  | none =>
    have h2 := runCopies_eval guarded ops hdisj fs p
    rw [hlw] at h2
    simp only [Option.getD_none] at h2 ⊢

lemma prepareNormalVideos_eq_runCopies (inputDir videoNormalDir videoId : String)
    (chunks : List String) (fs : FileSys) :
    prepareNormalVideos inputDir videoNormalDir videoId chunks fs =
      runCopies true (dpNormalOps inputDir videoNormalDir videoId chunks) fs := by
  have hf : processChunkNormalVideo inputDir videoNormalDir videoId =
      fun fs0 ch => copyStep true fs0 (inputDir ++ "/" ++ ch ++ ".mp4",
        videoNormalDir ++ "/" ++ (videoId ++ "_" ++ ch) ++ ".mp4") := by
    funext fs0 ch
    unfold processChunkNormalVideo
    dsimp only
  unfold prepareNormalVideos runCopies dpNormalOps
  rw [List.foldl_map, hf]

lemma plvCopyAccepted_eq_runCopies (filteredChunksDir : String) (accepted : List String)
    (fs : FileSys) :
    plvCopyAccepted filteredChunksDir accepted fs =
      runCopies false (accepted.map (plvCopyOp filteredChunksDir)) fs := by
  unfold plvCopyAccepted runCopies
  rw [List.foldl_map]

/-! ## String lemmas for the parser refinement -/

lemma isDigitChar_ne (ch x : Char) (h : isDigitChar ch = true) (hx : isDigitChar x = false) :
    ch ≠ x := by
  intro heq
  rw [heq, hx] at h
  exact Bool.noConfusion h

lemma isPySpace_of_digit (ch : Char) (h : isDigitChar ch = true) : isPySpace ch = false := by
  cases hsp : isPySpace ch
  · rfl
  · exfalso
    have h6 : ch = ' ' ∨ ch = '\t' ∨ ch = '\n' ∨ ch = '\r' ∨ ch = '\x0b' ∨ ch = '\x0c' := by
      unfold isPySpace at hsp
      simp only [Bool.or_eq_true, decide_eq_true_eq] at hsp
      tauto
    rcases h6 with h1 | h1 | h1 | h1 | h1 | h1 <;>
      (rw [h1] at h; exact absurd h (by decide))

lemma pySplitGo_length_pos (h : Char) (tl : List Char) :
    ∀ (fuel : ℕ) (l acc : List Char), 1 ≤ (pySplitGo h tl fuel l acc).length := by
  intro fuel
  induction fuel with
  | zero => intro l acc; cases l <;> simp [pySplitGo]
  | succ fuel ih =>
    intro l acc
    cases l with
    | nil => simp [pySplitGo]
    | cons c rest =>
      rw [pySplitGo]
      by_cases hpre : (h :: tl).isPrefixOf (c :: rest) = true
      · rw [if_pos hpre]; simp
      · rw [if_neg hpre]; exact ih rest (c :: acc)

lemma pySplitGo_fuel (h : Char) (tl : List Char) :
    ∀ (fuel1 fuel2 : ℕ) (l acc : List Char), l.length ≤ fuel1 → l.length ≤ fuel2 →
      pySplitGo h tl fuel1 l acc = pySplitGo h tl fuel2 l acc := by
  intro fuel1
  induction fuel1 with
  | zero =>
    intro fuel2 l acc h1 h2
    have hl : l = [] := List.eq_nil_of_length_eq_zero (Nat.le_zero.mp h1)
    subst hl
    cases fuel2 <;> rfl
  | succ fuel ih =>
    intro fuel2 l acc h1 h2
    cases l with
    | nil => cases fuel2 <;> rfl
    | cons c rest =>
      cases fuel2 with
      | zero => simp at h2
      | succ fuel2 =>
        rw [pySplitGo, pySplitGo]
        simp only [List.length_cons] at h1 h2
        by_cases hpre : (h :: tl).isPrefixOf (c :: rest) = true
        · rw [if_pos hpre, if_pos hpre]
          have hdrop : (rest.drop tl.length).length ≤ rest.length := by
            rw [List.length_drop]; omega
          rw [ih fuel2 (rest.drop tl.length) [] (by omega) (by omega)]
        · rw [if_neg hpre, if_neg hpre]
          exact ih fuel2 rest (c :: acc) (by omega) (by omega)

lemma pySplitGo_noOcc (h : Char) (tl : List Char) :
    ∀ (l : List Char), (∀ ch ∈ l, ch ≠ h) → ∀ (fuel : ℕ) (acc : List Char),
      pySplitGo h tl fuel l acc = [acc.reverse ++ l] := by
  intro l
  induction l with
  | nil => intro _ fuel acc; cases fuel <;> simp [pySplitGo]
  | cons c rest ih =>
    intro hno fuel acc
    cases fuel with
    | zero => rfl
    | succ fuel =>
      rw [pySplitGo]
      have hc : ¬ (h :: tl).isPrefixOf (c :: rest) = true := by
        intro hpre
        obtain ⟨t2, ht2⟩ := List.isPrefixOf_iff_prefix.mp hpre
        rw [List.cons_append] at ht2
        injection ht2 with hhc _
        exact hno c (List.mem_cons_self c rest) hhc.symm
      rw [if_neg hc,
        ih (fun ch hch => hno ch (List.mem_cons_of_mem c hch)) fuel (c :: acc)]
      simp

lemma pySplitGo_boundary (h : Char) (tl : List Char) :
    ∀ (a : List Char), (∀ ch ∈ a, ch ≠ h) →
      ∀ (b acc : List Char) (fuel : ℕ),
        a.length + 1 + tl.length + b.length ≤ fuel →
        pySplitGo h tl fuel (a ++ (h :: tl) ++ b) acc =
          (acc.reverse ++ a) :: pySplitGo h tl b.length b [] := by
  intro a
  induction a with
  | nil =>
    intro _ b acc fuel hfuel
    cases fuel with
    | zero => omega
    | succ fuel =>
      simp only [List.nil_append]
      rw [List.cons_append, pySplitGo]
      have hpre : (h :: tl).isPrefixOf (h :: (tl ++ b)) = true := by
        rw [List.isPrefixOf_iff_prefix]
        exact ⟨b, by simp⟩
      rw [if_pos hpre, List.drop_left]
      rw [pySplitGo_fuel h tl fuel b.length b [] (by omega) (le_refl _)]
      simp
  | cons x a ih =>
    intro hno b acc fuel hfuel
    cases fuel with
    | zero => simp at hfuel
    | succ fuel =>
      rw [List.cons_append, List.cons_append, pySplitGo]
      have hneq : ¬ (h :: tl).isPrefixOf (x :: ((a ++ (h :: tl)) ++ b)) = true := by
        intro hpre
        obtain ⟨t2, ht2⟩ := List.isPrefixOf_iff_prefix.mp hpre
        rw [List.cons_append] at ht2
        injection ht2 with hhx _
        exact hno x (List.mem_cons_self x a) hhx.symm
      rw [if_neg hneq]
      have hfuel' : a.length + 1 + tl.length + b.length ≤ fuel := by
        simp only [List.length_cons] at hfuel; omega
      rw [ih (fun ch hch => hno ch (List.mem_cons_of_mem x hch)) b (x :: acc) fuel hfuel']
      simp

lemma pySplitL_two (h : Char) (tl a b : List Char)
    (ha : ∀ ch ∈ a, ch ≠ h) (hb : ∀ ch ∈ b, ch ≠ h) :
    pySplitL (a ++ (h :: tl) ++ b) (h :: tl) = [a, b] := by
  unfold pySplitL
  dsimp only
  rw [pySplitGo_boundary h tl a ha b [] _ (by simp [List.length_append]; omega),
    pySplitGo_noOcc h tl b hb b.length []]
  simp

lemma containsSub_boundary (h : Char) (tl b : List Char) :
    containsSub ((h :: tl) ++ b) (h :: tl) = true := by
  unfold containsSub
  simp only [decide_eq_true_eq]
  have hb := pySplitGo_boundary h tl [] (by simp) b []
    ((h :: tl) ++ b).length (by simp [List.length_append]; omega)
  simp only [List.nil_append, List.reverse_nil] at hb
  rw [hb]
  have := pySplitGo_length_pos h tl b.length b []
  simp only [List.length_cons]
  omega

lemma pyStripL_id (l : List Char) (h : ∀ ch ∈ l, isPySpace ch = false) : pyStripL l = l := by
  have hd : ∀ (m : List Char), (∀ ch ∈ m, isPySpace ch = false) →
      m.dropWhile isPySpace = m := by
    intro m hm
    cases m with
    | nil => rfl
    | cons c rest =>
      rw [List.dropWhile_cons, hm c (List.mem_cons_self c rest)]
      simp
  unfold pyStripL
  rw [hd l h, hd l.reverse (fun ch hch => h ch (List.mem_reverse.mp hch)),
    List.reverse_reverse]

lemma takeLit?_some (lit l r : List Char) (h : takeLit? lit l = some r) : l = lit ++ r := by
  unfold takeLit? at h
  by_cases hp : lit.isPrefixOf l = true
  · rw [if_pos hp] at h
    obtain ⟨t2, ht2⟩ := List.isPrefixOf_iff_prefix.mp hp
    have hr : r = l.drop lit.length := (Option.some.inj h).symm
    rw [hr, ← ht2, List.drop_left]
  · rw [if_neg hp] at h
    exact absurd h (by simp)

lemma splitSign_eq (r : List Char) :
    r = (if (splitSign r).1 then '-' :: (splitSign r).2 else (splitSign r).2) := by
  cases r with
  | nil => rfl
  | cons c rest =>
    unfold splitSign
    by_cases hc : c = '-'
    · subst hc; simp
    · simp [hc]

lemma allDigits_chars (o : List Char) (ho : allDigits o = true) :
    ∀ ch ∈ o, isDigitChar ch = true := by
  unfold allDigits at ho
  simp only [Bool.and_eq_true, List.all_eq_true] at ho
  exact fun ch hch => ho.2 ch hch

lemma allDigits_ne_nil (o : List Char) (ho : allDigits o = true) : o ≠ [] := by
  intro hnil
  subst hnil
  exact absurd ho (by decide)

lemma pyIntL_digits (o : List Char) (ho : allDigits o = true) :
    pyIntL o = some ((digitsVal o : ℤ)) := by
  have hchars := allDigits_chars o ho
  unfold pyIntL
  rw [pyStripL_id o (fun ch hch => isPySpace_of_digit ch (hchars ch hch))]
  cases o with
  | nil => exact absurd rfl (allDigits_ne_nil [] ho)
  | cons c rest =>
    have hcd := hchars c (List.mem_cons_self c rest)
    dsimp only
    rw [if_neg (isDigitChar_ne c '-' hcd (by decide)),
      if_neg (isDigitChar_ne c '+' hcd (by decide)), if_pos ho]

lemma pyIntL_neg_digits (o : List Char) (ho : allDigits o = true) :
    pyIntL ('-' :: o) = some (-(digitsVal o : ℤ)) := by
  have hchars := allDigits_chars o ho
  unfold pyIntL
  have hsp : ∀ ch ∈ ('-' :: o), isPySpace ch = false := by
    intro ch hch
    rcases List.mem_cons.mp hch with hch | hch
    · rw [hch]; decide
    · exact isPySpace_of_digit ch (hchars ch hch)
  rw [pyStripL_id ('-' :: o) hsp]
  dsimp only
  rw [if_pos rfl, if_pos ho]

/-! ## Float-token lemmas -/

lemma allDigits_of (l : List Char) (hne : l ≠ []) (hall : ∀ ch ∈ l, isDigitChar ch = true) :
    allDigits l = true := by
  unfold allDigits
  cases l with
  | nil => exact absurd rfl hne
  | cons c rest =>
    simp only [List.isEmpty_cons, Bool.not_false, Bool.true_and, List.all_eq_true]
    exact fun x hx => hall x hx

lemma takeWhile_digits_append (d rest : List Char) (hd : ∀ ch ∈ d, isDigitChar ch = true)
    (hrest : ∀ x, rest.head? = some x → isDigitChar x = false) :
    (d ++ rest).takeWhile isDigitChar = d ∧ (d ++ rest).dropWhile isDigitChar = rest := by
  induction d with
  | nil =>
    simp only [List.nil_append]
    cases rest with
    | nil => exact ⟨rfl, rfl⟩
    | cons r rt =>
      have hr := hrest r rfl
      rw [List.takeWhile_cons, List.dropWhile_cons, hr]
      simp
  | cons x d ih =>
    have hx := hd x (List.mem_cons_self x d)
    obtain ⟨h1, h2⟩ := ih (fun ch hch => hd ch (List.mem_cons_of_mem x hch))
    rw [List.cons_append, List.takeWhile_cons, List.dropWhile_cons, hx]
    simp only [if_true]
    exact ⟨by rw [h1], by rw [h2]⟩

lemma pyFloatMag_digits (d : List Char) (hne : d ≠ [])
    (hall : ∀ ch ∈ d, isDigitChar ch = true) :
    pyFloatMag d = some ((digitsVal d : ℚ)) := by
  obtain ⟨h1, h2⟩ := takeWhile_digits_append d [] hall (by intro x hx; simp at hx)
  rw [List.append_nil] at h1 h2
  unfold pyFloatMag
  rw [h1, h2]
  dsimp only
  have hfr : ¬ (([] : List Char).head? = some '.') := by simp
  rw [if_neg hfr]
  dsimp only
  rw [if_neg (by
    intro hcon
    exact hne (List.isEmpty_iff.mp hcon.1))]
  have hz : (digitsVal ([] : List Char) : ℚ) = 0 := by norm_num [digitsVal]
  rw [hz]
  norm_num

lemma pyFloatMag_point (d f : List Char) (_hdne : d ≠ []) (hfne : f ≠ [])
    (hdall : ∀ ch ∈ d, isDigitChar ch = true) (hfall : ∀ ch ∈ f, isDigitChar ch = true) :
    pyFloatMag (d ++ '.' :: f) =
      some ((digitsVal d : ℚ) + (digitsVal f : ℚ) / (10 : ℚ) ^ f.length) := by
  obtain ⟨h1, h2⟩ := takeWhile_digits_append d ('.' :: f) hdall
    (by intro x hx; simp at hx; rw [← hx]; decide)
  obtain ⟨h3, h4⟩ := takeWhile_digits_append f [] hfall (by intro x hx; simp at hx)
  rw [List.append_nil] at h3 h4
  unfold pyFloatMag
  rw [h1, h2]
  dsimp only
  have hfr : ('.' :: f).head? = some '.' := rfl
  rw [if_pos hfr]
  simp only [List.tail_cons]
  rw [h3, h4]
  dsimp only
  rw [if_neg (by
    intro hcon
    exact hfne (List.isEmpty_iff.mp hcon.2))]

lemma specFloatVal?_inv (l : List Char) (v : ℚ) (h : specFloatVal? l = some v) :
    (allDigits l = true ∧ v = (digitsVal l : ℚ)) ∨
    (∃ d f, l = d ++ '.' :: f ∧ allDigits d = true ∧ allDigits f = true ∧
      v = (digitsVal d : ℚ) + (digitsVal f : ℚ) / (10 : ℚ) ^ f.length) := by
  unfold specFloatVal? at h
  dsimp only at h
  split_ifs at h with hip hr1 hcond
  · left
    have htd : ∀ ch ∈ l.takeWhile isDigitChar, isDigitChar ch = true := by
      intro ch hch; exact List.mem_takeWhile_imp hch
    have hl : l = l.takeWhile isDigitChar := by
      conv_lhs => rw [← List.takeWhile_append_dropWhile isDigitChar l]
      rw [List.isEmpty_iff.mp hr1, List.append_nil]
    constructor
    · apply allDigits_of
      · intro h0
        apply hip
        rw [h0]
        rfl
      · intro ch hch; rw [hl] at hch; exact htd ch hch
    · rw [hl]
      exact (Option.some.inj h).symm
  · right
    cases hr1s : l.dropWhile isDigitChar with
    | nil => rw [hr1s] at hcond; simp at hcond
    | cons c t =>
      rw [hr1s] at hcond
      simp only [List.head?_cons, Option.some.injEq, List.tail_cons] at hcond
      obtain ⟨hc, htne, htall⟩ := hcond
      refine ⟨l.takeWhile isDigitChar, t, ?_, ?_, ?_, ?_⟩
      · conv_lhs => rw [← List.takeWhile_append_dropWhile isDigitChar l]
        rw [hr1s, hc]
      · apply allDigits_of
        · intro h0
          apply hip
          rw [h0]
          rfl
        · intro ch hch; exact List.mem_takeWhile_imp hch
      · apply allDigits_of
        · intro h0
          rw [h0] at htne
          exact absurd htne (by decide)
        · exact fun ch hch => List.all_eq_true.mp htall ch hch
      · rw [hr1s] at h
        simp only [List.tail_cons] at h
        exact (Option.some.inj h).symm

/-- A `<float>` token of the grammar is accepted with the same value by
Python `float`. -/
lemma pyFloatL_specTok (l : List Char) (v : ℚ) (h : specFloatVal? l = some v) :
    pyFloatL l = some v := by
  have hinv := specFloatVal?_inv l v h
  have hchars : ∀ ch ∈ l, isDigitChar ch = true ∨ ch = '.' := by
    rcases hinv with ⟨hall, _⟩ | ⟨d, f, hl, hd, hf, _⟩
    · exact fun ch hch => Or.inl (allDigits_chars l hall ch hch)
    · intro ch hch
      rw [hl] at hch
      rcases List.mem_append.mp hch with hch | hch
      · exact Or.inl (allDigits_chars d hd ch hch)
      · rcases List.mem_cons.mp hch with hch | hch
        · exact Or.inr hch
        · exact Or.inl (allDigits_chars f hf ch hch)
  have hsp : ∀ ch ∈ l, isPySpace ch = false := by
    intro ch hch
    rcases hchars ch hch with h1 | h1
    · exact isPySpace_of_digit ch h1
    · rw [h1]; decide
  have hmag : pyFloatMag l = some v := by
    rcases hinv with ⟨hall, hv⟩ | ⟨d, f, hl, hd, hf, hv⟩
    · rw [hv]
      exact pyFloatMag_digits l (allDigits_ne_nil l hall) (allDigits_chars l hall)
    · rw [hl, hv]
      exact pyFloatMag_point d f (allDigits_ne_nil d hd) (allDigits_ne_nil f hf)
        (allDigits_chars d hd) (allDigits_chars f hf)
  have hhead : ∃ ch rest, l = ch :: rest ∧ isDigitChar ch = true := by
    rcases hinv with ⟨hall, _⟩ | ⟨d, f, hl, hd, _, _⟩
    · cases hl : l with
      | nil => rw [hl] at hall; exact absurd hall (by decide)
      | cons c rest =>
        refine ⟨c, rest, rfl, ?_⟩
        have := allDigits_chars l hall c (by rw [hl]; exact List.mem_cons_self c rest)
        exact this
    · cases hdl : d with
      | nil => exact absurd hdl (allDigits_ne_nil d hd)
      | cons c rest =>
        refine ⟨c, rest ++ '.' :: f, by rw [hl, hdl, List.cons_append], ?_⟩
        exact allDigits_chars d hd c (by rw [hdl]; exact List.mem_cons_self c rest)
  obtain ⟨ch, rest, hl2, hchd⟩ := hhead
  unfold pyFloatL
  rw [pyStripL_id l hsp, hl2]
  dsimp only
  rw [if_neg (isDigitChar_ne ch '-' hchd (by decide)),
    if_neg (isDigitChar_ne ch '+' hchd (by decide)), ← hl2]
  exact hmag

/-- Inversion of the grammar parser: a successful parse decomposes the
stripped line into the grammar's literal separators and tokens, and the
tokens convert under Python `int`/`float` to the candidate's fields. -/
lemma specTrackLine_decomp (l : List Char) (cand : TrackCandidate)
    (h : specTrackLine? l = some cand) :
    ∃ t os r6,
      pyStripL l =
        "TRACK ".data ++ (t ++ (": OFFSET ".data ++ (os ++ (", CONF ".data ++ r6)))) ∧
      t ≠ [] ∧ (∀ ch ∈ t, isDigitChar ch = true) ∧
      os ≠ [] ∧ (∀ ch ∈ os, isDigitChar ch = true ∨ ch = '-') ∧
      pyIntL os = some cand.offset ∧
      (∀ ch ∈ r6, isDigitChar ch = true ∨ ch = '.') ∧
      pyFloatL r6 = some cand.confidence := by
  unfold specTrackLine? at h
  cases h1 : takeLit? "TRACK ".data (pyStripL l) with
  | none => rw [h1] at h; exact Option.noConfusion h
  | some r1 =>
  rw [h1] at h
  dsimp only at h
  by_cases ht : (r1.takeWhile isDigitChar).isEmpty = true
  · rw [if_pos ht] at h; exact Option.noConfusion h
  rw [if_neg ht] at h
  cases h2 : takeLit? ": OFFSET ".data (r1.dropWhile isDigitChar) with
  | none => rw [h2] at h; exact Option.noConfusion h
  | some r3 =>
  rw [h2] at h
  dsimp only at h
  have hsse := splitSign_eq r3
  rcases hsplit : splitSign r3 with ⟨neg, r4⟩
  rw [hsplit] at h hsse
  dsimp only at h hsse
  by_cases ho : (r4.takeWhile isDigitChar).isEmpty = true
  · rw [if_pos ho] at h; exact Option.noConfusion h
  rw [if_neg ho] at h
  cases h3 : takeLit? ", CONF ".data (r4.dropWhile isDigitChar) with
  | none => rw [h3] at h; exact Option.noConfusion h
  | some r6 =>
  rw [h3] at h
  dsimp only at h
  cases h4 : specFloatVal? r6 with
  | none => rw [h4] at h; exact Option.noConfusion h
  | some cv =>
  rw [h4] at h
  have hcand := Option.some.inj h
  -- facts about the tokens
  have e1 : pyStripL l = "TRACK ".data ++ r1 := takeLit?_some _ _ _ h1
  have e3 : r1.dropWhile isDigitChar = ": OFFSET ".data ++ r3 := takeLit?_some _ _ _ h2
  have e6 : r4.dropWhile isDigitChar = ", CONF ".data ++ r6 := takeLit?_some _ _ _ h3
  have htne : r1.takeWhile isDigitChar ≠ [] := by
    intro h0; apply ht; rw [h0]; rfl
  have htd : ∀ ch ∈ r1.takeWhile isDigitChar, isDigitChar ch = true :=
    fun ch hch => List.mem_takeWhile_imp hch
  have hone : r4.takeWhile isDigitChar ≠ [] := by
    intro h0; apply ho; rw [h0]; rfl
  have hod : ∀ ch ∈ r4.takeWhile isDigitChar, isDigitChar ch = true :=
    fun ch hch => List.mem_takeWhile_imp hch
  have hoall : allDigits (r4.takeWhile isDigitChar) = true := allDigits_of _ hone hod
  have hr4 : r4 = r4.takeWhile isDigitChar ++ (", CONF ".data ++ r6) := by
    conv_lhs => rw [← List.takeWhile_append_dropWhile isDigitChar r4]
    rw [e6]
  have hr6chars : ∀ ch ∈ r6, isDigitChar ch = true ∨ ch = '.' := by
    intro ch hch
    cases h4inv : specFloatVal? r6 with
    | none => rw [h4inv] at h4; exact Option.noConfusion h4
    | some cv2 =>
      rcases specFloatVal?_inv r6 cv2 h4inv with ⟨hall, _⟩ | ⟨d, f, hl6, hd, hf, _⟩
      · exact Or.inl (allDigits_chars r6 hall ch hch)
      · rw [hl6] at hch
        rcases List.mem_append.mp hch with hch | hch
        · exact Or.inl (allDigits_chars d hd ch hch)
        · rcases List.mem_cons.mp hch with hch | hch
          · exact Or.inr hch
          · exact Or.inl (allDigits_chars f hf ch hch)
  have hflt : pyFloatL r6 = some cand.confidence := by
    rw [pyFloatL_specTok r6 cv h4, ← hcand]
  cases neg with
  | false =>
    refine ⟨r1.takeWhile isDigitChar, r4.takeWhile isDigitChar, r6, ?_, htne, htd,
      hone, fun ch hch => Or.inl (hod ch hch), ?_, hr6chars, hflt⟩
    · rw [e1]
      apply congrArg
      simp only [Bool.false_eq_true, if_false] at hsse
      conv_lhs => rw [← List.takeWhile_append_dropWhile isDigitChar r1, e3, hsse, hr4]
    · rw [pyIntL_digits _ hoall, ← hcand]
      simp
  | true =>
    refine ⟨r1.takeWhile isDigitChar, '-' :: r4.takeWhile isDigitChar, r6, ?_, htne, htd,
      by simp, ?_, ?_, hr6chars, hflt⟩
    · rw [e1]
      apply congrArg
      simp only [if_true] at hsse
      conv_lhs => rw [← List.takeWhile_append_dropWhile isDigitChar r1, e3, hsse, hr4]
      simp
    · intro ch hch
      rcases List.mem_cons.mp hch with hch | hch
      · exact Or.inr hch
      · exact Or.inl (hod ch hch)
    · rw [pyIntL_neg_digits _ hoall, ← hcand]
      simp

lemma ne_of_mem_of_all (l : List Char) (x : Char)
    (hall : l.all (fun c => decide (c ≠ x)) = true) :
    ∀ ch ∈ l, ch ≠ x := by
  intro ch hch
  have := List.all_eq_true.mp hall ch hch
  simpa using this

/-- Every line matching the specification's grammar is accepted by the
source parser, with the same offset and confidence. -/
lemma parseTrackLinePLV_grammar (l : List Char) (cand : TrackCandidate)
    (h : specTrackLine? l = some cand) :
    parseTrackLinePLV l = some cand := by
  obtain ⟨t, os, r6, hL, htne, htd, hosne, hosd, hint, hr6chars, hflt⟩ :=
    specTrackLine_decomp l cand h
  have htnc : ∀ x, isDigitChar x = false → ∀ ch ∈ t, ch ≠ x :=
    fun x hx ch hch => isDigitChar_ne ch x (htd ch hch) hx
  have hosnc : ∀ x, isDigitChar x = false → x ≠ '-' → ∀ ch ∈ os, ch ≠ x := by
    intro x hx hxm ch hch
    rcases hosd ch hch with hd | hd
    · exact isDigitChar_ne ch x hd hx
    · rw [hd]; exact fun hcon => hxm hcon.symm
  have hr6nc : ∀ x, isDigitChar x = false → x ≠ '.' → ∀ ch ∈ r6, ch ≠ x := by
    intro x hx hxm ch hch
    rcases hr6chars ch hch with hd | hd
    · exact isDigitChar_ne ch x hd hx
    · rw [hd]; exact fun hcon => hxm hcon.symm
  have hsplit1 : pySplitL (pyStripL l) [',', ' '] =
      ["TRACK ".data ++ (t ++ (": OFFSET ".data ++ os)), "CONF ".data ++ r6] := by
    have hform : pyStripL l =
        (("TRACK ".data ++ (t ++ (": OFFSET ".data ++ os))) ++ (',' :: [' '])) ++
          ("CONF ".data ++ r6) := by
      rw [hL]
      simp only [List.append_assoc]
      rfl
    rw [hform]
    apply pySplitL_two
    · intro ch hch
      simp only [List.mem_append] at hch
      rcases hch with hch | hch | hch | hch
      · exact ne_of_mem_of_all "TRACK ".data ',' (by decide) ch hch
      · exact htnc ',' (by decide) ch hch
      · exact ne_of_mem_of_all ": OFFSET ".data ',' (by decide) ch hch
      · exact hosnc ',' (by decide) (by decide) ch hch
    · intro ch hch
      simp only [List.mem_append] at hch
      rcases hch with hch | hch
      · exact ne_of_mem_of_all "CONF ".data ',' (by decide) ch hch
      · exact hr6nc ',' (by decide) (by decide) ch hch
  have hsplit2 : pySplitL ("TRACK ".data ++ (t ++ (": OFFSET ".data ++ os)))
      ": OFFSET ".data = ["TRACK ".data ++ t, os] := by
    have hform : "TRACK ".data ++ (t ++ (": OFFSET ".data ++ os)) =
        (("TRACK ".data ++ t) ++ (':' :: " OFFSET ".data)) ++ os := by
      simp only [List.append_assoc]
    rw [hform]
    apply pySplitL_two
    · intro ch hch
      rcases List.mem_append.mp hch with hch | hch
      · exact ne_of_mem_of_all "TRACK ".data ':' (by decide) ch hch
      · exact htnc ':' (by decide) ch hch
    · exact hosnc ':' (by decide) (by decide)
  have hsplit3 : pySplitL ("CONF ".data ++ r6) "CONF ".data = [[], r6] := by
    have hform : "CONF ".data ++ r6 = (([] ++ ('C' :: "ONF ".data)) ++ r6) := by
      simp
    rw [hform]
    apply pySplitL_two
    · intro ch hch
      simp at hch
    · exact hr6nc 'C' (by decide) (by decide)
  have hcontains : containsSub (pyStripL l) "TRACK".data = true := by
    have hform : pyStripL l = ('T' :: "RACK".data) ++
        (' ' :: (t ++ (": OFFSET ".data ++ (os ++ (", CONF ".data ++ r6))))) := by
      rw [hL]
      rfl
    rw [hform]
    exact containsSub_boundary 'T' "RACK".data _
  have hnem : ¬ ((pyStripL l).isEmpty = true) := by
    rw [hL]
    intro hcon
    exact Bool.noConfusion hcon
  unfold parseTrackLinePLV
  dsimp only
  rw [if_neg hnem, if_pos hcontains, hsplit1]
  rw [if_pos (by norm_num)]
  simp only [List.getD_cons_zero, List.getD_cons_succ]
  rw [hsplit2, hsplit3]
  rw [if_pos (by constructor <;> norm_num)]
  simp only [List.getD_cons_zero, List.getD_cons_succ]
  rw [hint, hflt]

/-! ## Claim theorems -/

/-- C1: for every `total_duration > 0`, `chunk_length > 0` and
`0 ≤ overlap < chunk_length`, the chunk planner starts at `t = 0` and emits
exactly the chunks `[i·step, min(i·step + chunk_length, total))` for
`i = 0, …, N-1`, where `N` is the first index whose chunk is discarded
(start past the end, or duration below the 5-second minimum); in
particular `(75, 30, 5)` yields `[0,30), [25,55), [50,75)` and
`(27, 30, 5)` yields only `[0,27)`. -/
theorem c1_chunk_planner :
    (∀ (total : ℚ) (c o : ℤ), 0 < total → 0 < c → 0 ≤ o → o < c →
      ∀ (fuel : ℕ) (L : List Chunk), cutVideoChunks fuel total c o = some L →
        ∃ N, L = (List.range N).map (specChunk total c o) ∧
          (∀ i, i < N → specKeep total c o i = true) ∧ specKeep total c o N = false) ∧
    cutVideoChunks 8 75 30 5 = some [⟨0, 0, 30⟩, ⟨1, 25, 55⟩, ⟨2, 50, 75⟩] ∧
    cutVideoChunks 8 27 30 5 = some [⟨0, 0, 27⟩] := by
  refine ⟨?_, by decide, by decide⟩
  intro total c o _ _ _ _ fuel L hrun
  have hrun' : cutChunksGo total c o fuel
      (((0 : ℕ) : ℚ) * ((c : ℚ) - (o : ℚ))) 0 [] = some L := by
    rw [show (((0 : ℕ) : ℚ) * ((c : ℚ) - (o : ℚ))) = 0 by simp]
    exact hrun
  obtain ⟨N, _, hL, hkeep, hstop⟩ := cutChunksGo_char total c o fuel 0 [] L hrun'
  refine ⟨N, ?_, fun i hi => hkeep i (Nat.zero_le i) hi, hstop⟩
  rw [hL]
  simp [List.range_eq_range']

/-- Witness for C1 at `(75, 30, 5)`. -/
theorem c1_chunk_planner_witness :
    ∃ N, [(⟨0, 0, 30⟩ : Chunk), ⟨1, 25, 55⟩, ⟨2, 50, 75⟩] =
        (List.range N).map (specChunk 75 30 5) ∧
      (∀ i, i < N → specKeep 75 30 5 i = true) ∧ specKeep 75 30 5 N = false :=
  c1_chunk_planner.1 75 30 5 (by norm_num) (by norm_num) (by norm_num) (by norm_num)
    8 _ (by decide)

/-- C2 counterexample: at `confidence = 4.9`, `offset = 2`,
`min_confidence = 5.0`, `max_abs_offset = 3` the verdict fails as claimed,
but the reason string is `"Low confidence: 4.900 < 5.0"` — the confidence
is formatted with `{:.3f}` — not the claimed `"Low confidence: 4.9 < 5.0"`. -/
theorem c2_counterexample :
    (evaluateQuality (49/10) 2 5 3).passed = false ∧
    (evaluateQuality (49/10) 2 5 3).reasons ≠ ["Low confidence: 4.9 < 5.0"] ∧
    (evaluateQuality (49/10) 2 5 3).reasons = ["Low confidence: 4.900 < 5.0"] := by
  refine ⟨by decide, by decide, by decide⟩

/-- C2 (amended): `passed = (confidence ≥ min_confidence) AND
(|offset| ≤ max_abs_offset)`; the reasons list carries the confidence
reason first and the offset reason second, one exactly per failing
criterion, and is empty exactly when the verdict passes; the concrete
evaluation yields `passed = false` with the single reason
`"Low confidence: 4.900 < 5.0"` (three-decimal formatting). -/
theorem c2_amended :
    (∀ (conf : ℚ) (off : ℤ) (minC : ℚ) (maxO : ℤ),
      ((evaluateQuality conf off minC maxO).passed = true ↔ minC ≤ conf ∧ |off| ≤ maxO) ∧
      (evaluateQuality conf off minC maxO).reasons =
        (if minC ≤ conf then [] else
          ["Low confidence: " ++ fmtFix3 conf ++ " < " ++ pyFloatRepr minC]) ++
        (if |off| ≤ maxO then [] else
          ["High offset: " ++ toString |off| ++ " > " ++ toString maxO]) ∧
      ((evaluateQuality conf off minC maxO).reasons = [] ↔
        (evaluateQuality conf off minC maxO).passed = true)) ∧
    evaluateQuality (49/10) 2 5 3 = ⟨false, ["Low confidence: 4.900 < 5.0"]⟩ := by
  constructor
  · intro conf off minC maxO
    unfold evaluateQuality
    dsimp only
    refine ⟨?_, ?_, ?_⟩
    · simp
    · by_cases h1 : minC ≤ conf <;> by_cases h2 : |off| ≤ maxO <;> simp [h1, h2]
    · by_cases h1 : minC ≤ conf <;> by_cases h2 : |off| ≤ maxO <;> simp [h1, h2]
  · decide

/-- C3 counterexample: the line `"TRACKFOO: OFFSET 1, CONF 2.0"` does not
match the grammar `TRACK <int>: OFFSET <int>, CONF <float>`, yet the
parser does not skip it — it yields the candidate `{offset 1, conf 2.0}`
(the code only requires the substring `TRACK` plus the separators). -/
theorem c3_counterexample :
    specTrackLine? "TRACKFOO: OFFSET 1, CONF 2.0".data = none ∧
    parseTrackLinePLV "TRACKFOO: OFFSET 1, CONF 2.0".data = some ⟨1, 2⟩ := by
  refine ⟨by decide, by decide⟩

/-- C3 (amended): the parser yields one candidate for every line matching
the grammar (with the grammar's offset and confidence), skips every line
whose field extraction fails without aborting the parse, and may also
accept certain malformed lines; the best candidate is the earliest one of
maximal confidence (first-maximum); the concrete three-line input yields
exactly two candidates with best `{offset -1, conf 7.183}`, and an exact
confidence tie at positions 0 and 2 selects position 0. -/
theorem c3_amended :
    (∀ (line : List Char) (cand : TrackCandidate),
      specTrackLine? line = some cand → parseTrackLinePLV line = some cand) ∧
    parseOffsetsPLV
        "TRACK 0: OFFSET -1, CONF 7.183\nTRACK 1: OFFSET 2, CONF 3.500\ngarbage line".data =
      [⟨-1, 7183/1000⟩, ⟨2, 7/2⟩] ∧
    bestTrack [⟨-1, 7183/1000⟩, ⟨2, 7/2⟩] = some ⟨-1, 7183/1000⟩ ∧
    bestTrack [⟨10, 5⟩, ⟨20, 3⟩, ⟨30, 5⟩] = some ⟨10, 5⟩ ∧
    (∀ (l : List TrackCandidate) (c : TrackCandidate), bestTrack l = some c →
      ∃ pre post, l = pre ++ c :: post ∧ (∀ y ∈ pre, y.confidence < c.confidence) ∧
        ∀ y ∈ l, y.confidence ≤ c.confidence) :=
  ⟨parseTrackLinePLV_grammar, by decide, by decide, by decide, bestTrack_first_max⟩

/-- Witness for C3: a concrete grammar line is parsed with its value. -/
theorem c3_witness :
    parseTrackLinePLV "TRACK 3: OFFSET -2, CONF 9.5".data = some ⟨-2, 19/2⟩ :=
  c3_amended.1 _ _ (by decide)

/-- C4 counterexample: with `overlap = chunk_length = 30` and
`total_duration = 75`, the planner raises no `ConfigurationError` (no such
check exists in the code) — the loop never terminates: it returns no
result for any amount of fuel. -/
theorem c4_counterexample : plannerDiverges 75 30 30 := by
  intro fuel
  exact cutChunksGo_div 75 30 30 (by norm_num) (by norm_num) (by norm_num)
    fuel 0 (le_refl 0) 0 []

/-- C4 (amended): the chunk planner performs no input validation; on valid
inputs (`0 ≤ overlap < chunk_length`) it completes normally without error,
while with `overlap ≥ chunk_length` (and `chunk_length`, `total_duration`
at least the 5-second minimum, so the short-chunk break cannot fire) the
loop never terminates instead of raising a `ConfigurationError`. -/
theorem c4_amended :
    (∀ (total : ℚ) (c o : ℤ), 0 < total → 0 < c → 0 ≤ o → o < c →
      ∃ L, cutVideoChunks (plannerFuel total c o) total c o = some L) ∧
    (∀ (total : ℚ) (c o : ℤ), c ≤ o → (5 : ℚ) ≤ (c : ℚ) → (5 : ℚ) ≤ total →
      plannerDiverges total c o) := by
  constructor
  · intro total c o htot hc ho hoc
    have hstep : (0 : ℚ) < (c : ℚ) - (o : ℚ) := by
      have : (o : ℚ) < (c : ℚ) := by exact_mod_cast hoc
      linarith
    have h2 : (0 : ℤ) ≤ ⌈total / ((c : ℚ) - (o : ℚ))⌉ :=
      Int.ceil_nonneg (by positivity)
    have h4 : total / ((c : ℚ) - (o : ℚ)) ≤
        (((⌈total / ((c : ℚ) - (o : ℚ))⌉).toNat : ℕ) : ℚ) := by
      have h5 := Int.le_ceil (total / ((c : ℚ) - (o : ℚ)))
      rw [← Int.toNat_of_nonneg h2] at h5
      exact_mod_cast h5
    have hceil : total ≤ (((⌈total / ((c : ℚ) - (o : ℚ))⌉).toNat : ℕ) : ℚ) *
        ((c : ℚ) - (o : ℚ)) := (div_le_iff₀ hstep).mp h4
    have hterm := cutChunksGo_term total c o ((⌈total / ((c : ℚ) - (o : ℚ))⌉).toNat) 0 []
      (by simpa using hceil)
    rw [show (((0 : ℕ) : ℚ) * ((c : ℚ) - (o : ℚ))) = 0 by simp] at hterm
    obtain ⟨L, hL⟩ := Option.isSome_iff_exists.mp hterm
    exact ⟨L, hL⟩
  · intro total c o hco hc5 ht5 fuel
    have hstep : (c : ℚ) - (o : ℚ) ≤ 0 := by
      have : (c : ℚ) ≤ (o : ℚ) := by exact_mod_cast hco
      linarith
    exact cutChunksGo_div total c o hstep hc5 ht5 fuel 0 (le_refl 0) 0 []

/-- Witness for C4 at `(75, 30, 5)` (valid: completes) and `(75, 30, 30)`
(invalid: no result at fuel 9). -/
theorem c4_witness :
    (∃ L, cutVideoChunks (plannerFuel 75 30 5) 75 30 5 = some L) ∧
    cutVideoChunks 9 75 30 30 = none :=
  ⟨c4_amended.1 75 30 5 (by norm_num) (by norm_num) (by norm_num) (by norm_num),
   c4_amended.2 75 30 30 (le_refl _) (by norm_num) (by norm_num) 9⟩

/-- C5 counterexample: in `process_long_video`, a chunk whose
preprocessing and scoring stages succeed but whose parsed output has no
well-formed candidate is not a pipeline-stage failure: it is classified
`success` and receives a (rejected) quality verdict via the defaults
`confidence = 0.0` and `offset = inf`, contradicting the claim that no
verdict is produced. -/
theorem c5_counterexample :
    classifyPlvChunk 2 10 true "chunk_000"
        (runSyncnetPipeline ⟨0, ["00000.avi"], 0, 0, some "garbage"⟩) =
      some ⟨"chunk_000", .success, none, none, .rejected,
        ["low_confidence (0.000 < 2.0)", "high_offset (inf > 10)"]⟩ := by
  decide

/-- C5 (amended): in the batch filter (`SyncNetFilter.process_single_video`),
a job whose preprocessing and scoring stages succeed but whose parsed
scoring output contains no well-formed candidate terminates in the
`failed` state (the spec's `PipelineStageFailure`) with error
`"Could not parse SyncNet results"`, distinct from the no-face-track
state, and no quality verdict is produced for it; `process_long_video`
instead classifies such a chunk as a success and rejects it. -/
theorem c5_amended :
    ∀ (minC : ℚ) (maxO : ℤ) (env : VideoEnv),
      env.pipelineRet = 0 → env.tracksFileExists = true → env.syncnetRet = 0 →
      videoTracks env = [] →
      (processSingleVideo minC maxO env).status = .failed ∧
      (processSingleVideo minC maxO env).status ≠ .noFaces ∧
      (processSingleVideo minC maxO env).error = some "Could not parse SyncNet results" ∧
      (processSingleVideo minC maxO env).passesQuality = none ∧
      (processSingleVideo minC maxO env).qualityReasons = none := by
  intro minC maxO env h1 h2 h3 h4
  unfold processSingleVideo
  rw [if_neg (by rw [h1]; simp), if_neg (by rw [h2]; simp), if_neg (by rw [h3]; simp), h4]
  refine ⟨rfl, by simp [bestTrack], rfl, rfl, rfl⟩

/-- Witness for C5 at a concrete environment with unparseable output. -/
theorem c5_witness :
    (processSingleVideo 5 3 ⟨0, "", true, 0, "", some "garbage", 0⟩).status =
        JobStatus.failed ∧
    (processSingleVideo 5 3 ⟨0, "", true, 0, "", some "garbage", 0⟩).status ≠
        JobStatus.noFaces ∧
    (processSingleVideo 5 3 ⟨0, "", true, 0, "", some "garbage", 0⟩).error =
        some "Could not parse SyncNet results" ∧
    (processSingleVideo 5 3 ⟨0, "", true, 0, "", some "garbage", 0⟩).passesQuality = none ∧
    (processSingleVideo 5 3 ⟨0, "", true, 0, "", some "garbage", 0⟩).qualityReasons = none :=
  c5_amended 5 3 ⟨0, "", true, 0, "", some "garbage", 0⟩ rfl rfl rfl (by decide)

/-- C6 counterexample: in `process_long_video`, a two-chunk batch where
the second chunk's preprocessing exits with code 1 completes, but the
persisted summary contains no record at all for the failed chunk — only
the other chunk's record — contradicting "the final summary contains each
job's true outcome including a failure record for the failed job". -/
theorem c6_counterexample :
    (processLongVideo 2 10 true
      [("chunk_000", plvDemoGood), ("chunk_001", plvDemoFail)]).totalChunks = 2 ∧
    (processLongVideo 2 10 true
      [("chunk_000", plvDemoGood), ("chunk_001", plvDemoFail)]).results.length = 1 ∧
    ((processLongVideo 2 10 true
      [("chunk_000", plvDemoGood), ("chunk_001", plvDemoFail)]).results.map
        (fun r => r.reference)) = ["chunk_000"] := by
  refine ⟨by decide, by decide, by decide⟩

/-- C6 (amended): in `batch_process_chunks` a stage failure terminates only
its own job: the batch yields one record per job, every record is the
job's own outcome (a function of its own environment only), the failing
job is recorded as `failed` with the pipeline error, and it is counted in
the summary's `failed` count; `process_long_video`, by contrast, omits
failed chunks from its summary records. -/
theorem c6_amended :
    ∀ (envs : List ChunkEnv) (i : ℕ) (e : ChunkEnv),
      envs.get? i = some e → e.pipelineRet ≠ 0 →
      (batchResults envs).length = envs.length ∧
      (∀ j e2, envs.get? j = some e2 →
        (batchResults envs).get? j = some (processSingleChunk e2)) ∧
      (batchResults envs).get? i = some (processSingleChunk e) ∧
      (processSingleChunk e).status = .failed ∧
      (processSingleChunk e).error = some ("Pipeline failed: " ++ e.pipelineStderr) ∧
      (batchProcessChunks envs).totalChunks = envs.length ∧
      1 ≤ (batchProcessChunks envs).failed := by
  intro envs i e hi hfail
  have hmap : ∀ j e2, envs.get? j = some e2 →
      (batchResults envs).get? j = some (processSingleChunk e2) := by
    intro j e2 hj
    unfold batchResults
    rw [List.get?_map, hj]
    rfl
  have hstat : (processSingleChunk e).status = .failed := by
    unfold processSingleChunk
    rw [if_pos hfail]
  have herr : (processSingleChunk e).error =
      some ("Pipeline failed: " ++ e.pipelineStderr) := by
    unfold processSingleChunk
    rw [if_pos hfail]
  refine ⟨by simp [batchResults], hmap, hmap i e hi, hstat, herr, rfl, ?_⟩
  unfold batchProcessChunks
  dsimp only
  have hmem : processSingleChunk e ∈ batchResults envs := by
    unfold batchResults
    exact List.mem_map_of_mem processSingleChunk (List.get?_mem hi)
  have hpos : 0 < List.countP
      (fun r => decide (r.status = .failed) || decide (r.status = .exception))
      (batchResults envs) := by
    rw [List.countP_pos_iff]
    exact ⟨processSingleChunk e, hmem, by rw [hstat]; decide⟩
  omega

/-- Witness for C6: the five-job demo batch with job 2's preprocessing
exiting 1 completes with the four other outcomes (3 successes, 1 no-faces)
and job 2 recorded and counted as failed. -/
theorem c6_witness :
    ((batchResults batchDemoEnvs).length = batchDemoEnvs.length ∧
      (∀ j e2, batchDemoEnvs.get? j = some e2 →
        (batchResults batchDemoEnvs).get? j = some (processSingleChunk e2)) ∧
      (batchResults batchDemoEnvs).get? 2 =
        some (processSingleChunk ⟨"chunk_002", 1, "boom", ["00000.avi"], 0, "", none⟩) ∧
      (processSingleChunk
        (⟨"chunk_002", 1, "boom", ["00000.avi"], 0, "", none⟩ : ChunkEnv)).status =
        .failed ∧
      (processSingleChunk
        (⟨"chunk_002", 1, "boom", ["00000.avi"], 0, "", none⟩ : ChunkEnv)).error =
        some ("Pipeline failed: " ++ "boom") ∧
      (batchProcessChunks batchDemoEnvs).totalChunks = batchDemoEnvs.length ∧
      1 ≤ (batchProcessChunks batchDemoEnvs).failed) ∧
    (batchProcessChunks batchDemoEnvs).successful = 3 ∧
    (batchProcessChunks batchDemoEnvs).noFaces = 1 ∧
    (batchProcessChunks batchDemoEnvs).failed = 1 :=
  ⟨c6_amended batchDemoEnvs 2 ⟨"chunk_002", 1, "boom", ["00000.avi"], 0, "", none⟩
      rfl (by decide),
    by decide, by decide, by decide⟩

/-- C7 counterexample: in `process_long_video`, a two-chunk batch with one
pipeline failure persists a summary whose record list is shorter than the
job count and whose outcome counts (`successful_analysis`,
`no_faces_chunks`) do not partition `total_chunks`; the summary has no
failure count at all. -/
theorem c7_counterexample :
    (processLongVideo 2 10 true
        [("chunk_000", plvDemoGood), ("chunk_001", plvDemoFail)]).results.length ≠
      (processLongVideo 2 10 true
        [("chunk_000", plvDemoGood), ("chunk_001", plvDemoFail)]).totalChunks ∧
    (processLongVideo 2 10 true
        [("chunk_000", plvDemoGood), ("chunk_001", plvDemoFail)]).successfulAnalysis +
      (processLongVideo 2 10 true
        [("chunk_000", plvDemoGood), ("chunk_001", plvDemoFail)]).noFacesChunks ≠
      (processLongVideo 2 10 true
        [("chunk_000", plvDemoGood), ("chunk_001", plvDemoFail)]).totalChunks := by
  refine ⟨by decide, by decide⟩

/-- C7 (amended): the summary persisted by `batch_process_chunks` contains
one record per job (including failed and no-face jobs), and its counts
(`total`, `successful`, `no_faces`, `failed`) each equal the tally
recomputed from the per-job records alone and partition the total;
`process_long_video`'s summary instead drops failed chunks entirely and
carries no failed count. -/
theorem c7_amended :
    ∀ envs : List ChunkEnv,
      (batchProcessChunks envs).results.length = envs.length ∧
      (batchProcessChunks envs).totalChunks = envs.length ∧
      (batchProcessChunks envs).successful =
        (batchProcessChunks envs).results.countP
          (fun r => decide (r.status = .success)) ∧
      (batchProcessChunks envs).noFaces =
        (batchProcessChunks envs).results.countP
          (fun r => decide (r.status = .noFaces)) ∧
      (batchProcessChunks envs).failed =
        (batchProcessChunks envs).results.countP
          (fun r => decide (r.status = .failed) || decide (r.status = .exception)) ∧
      (batchProcessChunks envs).successful + (batchProcessChunks envs).noFaces +
        (batchProcessChunks envs).failed = (batchProcessChunks envs).totalChunks := by
  intro envs
  have hstat : ∀ r ∈ batchResults envs,
      r.status = .success ∨ r.status = .noFaces ∨ r.status = .failed := by
    intro r hr
    obtain ⟨env, _, heq⟩ := List.mem_map.mp hr
    rw [← heq]
    exact processSingleChunk_status env
  refine ⟨by simp [batchProcessChunks, batchResults], rfl, rfl, rfl, rfl, ?_⟩
  have hpart := countP_status_partition (batchResults envs) hstat
  unfold batchProcessChunks
  dsimp only
  rw [hpart]
  simp [batchResults]

/-- C8: the two preset tables of the source assign different thresholds to
the same preset name: `quality_presets.FILTER_PRESETS` maps `"high"` to
`(min_confidence 4.0, max_abs_offset 5)` while the filter script's table
maps `"high"` to `(6.0, 3)`; the two mappings are not equal. -/
theorem c8_preset_tables_disagree :
    (FILTER_PRESETS "high").isSome = true ∧
    (filterScriptPresets "high").isSome = true ∧
    FILTER_PRESETS "high" ≠ filterScriptPresets "high" ∧
    FILTER_PRESETS ≠ filterScriptPresets := by
  refine ⟨by decide, by decide, by decide, ?_⟩
  intro hcon
  exact absurd (congrFun hcon "high") (by decide)

/-- C9: the output organizer is idempotent: whenever no copy's source path
coincides with any copy's destination path (the destinations are a
deterministic function of the source name and the optional video-id
prefix, in separate directories), running the organization twice over the
same inputs yields exactly the filesystem of a single run — each copy
overwrites — both for `DirectoryPreparer._process_chunk_normal_video` and
for `process_long_video`'s accepted-chunk copies. -/
theorem c9_organizer_idempotent :
    (∀ (inputDir videoNormalDir videoId : String) (chunks : List String) (fs : FileSys),
      (∀ op ∈ dpNormalOps inputDir videoNormalDir videoId chunks,
        ∀ op2 ∈ dpNormalOps inputDir videoNormalDir videoId chunks, op.1 ≠ op2.2) →
      prepareNormalVideos inputDir videoNormalDir videoId chunks
          (prepareNormalVideos inputDir videoNormalDir videoId chunks fs) =
        prepareNormalVideos inputDir videoNormalDir videoId chunks fs) ∧
    (∀ (filteredChunksDir : String) (accepted : List String) (fs : FileSys),
      (∀ op ∈ accepted.map (plvCopyOp filteredChunksDir),
        ∀ op2 ∈ accepted.map (plvCopyOp filteredChunksDir), op.1 ≠ op2.2) →
      plvCopyAccepted filteredChunksDir accepted
          (plvCopyAccepted filteredChunksDir accepted fs) =
        plvCopyAccepted filteredChunksDir accepted fs) := by
  constructor
  · intro inputDir vd vid chunks fs hdisj
    simp only [prepareNormalVideos_eq_runCopies]
    exact runCopies_idem true _ hdisj fs
  · intro dir accepted fs hdisj
    simp only [plvCopyAccepted_eq_runCopies]
    exact runCopies_idem false _ hdisj fs

/-- Witness for C9 on a concrete one-chunk input set. -/
theorem c9_witness :
    prepareNormalVideos "chunks" "out/video_normal" "vid" ["chunk_000"]
        (prepareNormalVideos "chunks" "out/video_normal" "vid" ["chunk_000"]
          organizerDemoFs) =
      prepareNormalVideos "chunks" "out/video_normal" "vid" ["chunk_000"]
        organizerDemoFs ∧
    plvCopyAccepted "filtered_chunks" ["chunks/chunk_000.mp4"]
        (plvCopyAccepted "filtered_chunks" ["chunks/chunk_000.mp4"] organizerDemoFs) =
      plvCopyAccepted "filtered_chunks" ["chunks/chunk_000.mp4"] organizerDemoFs :=
  ⟨c9_organizer_idempotent.1 "chunks" "out/video_normal" "vid" ["chunk_000"]
      organizerDemoFs (by decide),
   c9_organizer_idempotent.2 "filtered_chunks" ["chunks/chunk_000.mp4"]
      organizerDemoFs (by decide)⟩

/-- C10: for every `total_duration ≥ 0`, `chunk_length > 0` and
`0 ≤ overlap < chunk_length` (strictly positive step), the planning loop
terminates and emits at most `⌈total_duration / (chunk_length - overlap)⌉`
chunks; the precondition is necessary: with a non-positive step (and the
5-second minimum not cutting the loop short) the loop variable never
passes `total_duration` and the loop never terminates. -/
theorem c10_planner_termination :
    (∀ (total : ℚ) (c o : ℤ), 0 ≤ total → 0 < c → 0 ≤ o → o < c →
      ∃ L, cutVideoChunks (plannerFuel total c o) total c o = some L ∧
        L.length ≤ (⌈total / ((c : ℚ) - (o : ℚ))⌉).toNat) ∧
    (∀ (total : ℚ) (c o : ℤ), c ≤ o → (5 : ℚ) ≤ (c : ℚ) → (5 : ℚ) ≤ total →
      ∀ fuel, cutVideoChunks fuel total c o = none) := by
  constructor
  · intro total c o htot hc ho hoc
    have hstep : (0 : ℚ) < (c : ℚ) - (o : ℚ) := by
      have : (o : ℚ) < (c : ℚ) := by exact_mod_cast hoc
      linarith
    have h2 : (0 : ℤ) ≤ ⌈total / ((c : ℚ) - (o : ℚ))⌉ :=
      Int.ceil_nonneg (by positivity)
    have h4 : total / ((c : ℚ) - (o : ℚ)) ≤
        (((⌈total / ((c : ℚ) - (o : ℚ))⌉).toNat : ℕ) : ℚ) := by
      have h5 := Int.le_ceil (total / ((c : ℚ) - (o : ℚ)))
      rw [← Int.toNat_of_nonneg h2] at h5
      exact_mod_cast h5
    have hceil : total ≤ (((⌈total / ((c : ℚ) - (o : ℚ))⌉).toNat : ℕ) : ℚ) *
        ((c : ℚ) - (o : ℚ)) := (div_le_iff₀ hstep).mp h4
    have hterm := cutChunksGo_term total c o ((⌈total / ((c : ℚ) - (o : ℚ))⌉).toNat) 0 []
      (by simpa using hceil)
    rw [show (((0 : ℕ) : ℚ) * ((c : ℚ) - (o : ℚ))) = 0 by simp] at hterm
    obtain ⟨L, hL⟩ := Option.isSome_iff_exists.mp hterm
    refine ⟨L, hL, ?_⟩
    have hrun' : cutChunksGo total c o ((⌈total / ((c : ℚ) - (o : ℚ))⌉).toNat + 1)
        (((0 : ℕ) : ℚ) * ((c : ℚ) - (o : ℚ))) 0 [] = some L := by
      rw [show (((0 : ℕ) : ℚ) * ((c : ℚ) - (o : ℚ))) = 0 by simp]
      exact hL
    obtain ⟨N, _, hLeq, hkeep, _⟩ :=
      cutChunksGo_char total c o _ 0 [] L hrun'
    have hlen : L.length = N := by rw [hLeq]; simp
    rw [hlen]
    by_cases hN : N = 0
    · omega
    · have hkN := hkeep (N - 1) (Nat.zero_le _) (by omega)
      simp only [specKeep, Bool.and_eq_true, decide_eq_true_eq] at hkN
      have h5 : ((N - 1 : ℕ) : ℚ) < total / ((c : ℚ) - (o : ℚ)) :=
        (lt_div_iff₀ hstep).mpr hkN.1
      have h6 : ((N - 1 : ℕ) : ℤ) < ⌈total / ((c : ℚ) - (o : ℚ))⌉ := by
        rw [Int.lt_ceil]
        exact_mod_cast h5
      omega
  · intro total c o hco hc5 ht5 fuel
    have hstep : (c : ℚ) - (o : ℚ) ≤ 0 := by
      have : (c : ℚ) ≤ (o : ℚ) := by exact_mod_cast hco
      linarith
    exact cutChunksGo_div total c o hstep hc5 ht5 fuel 0 (le_refl 0) 0 []

/-- Witness for C10 at `(75, 30, 5)` (terminates within the bound) and
`(75, 30, 30)` (never terminates). -/
theorem c10_witness :
    (∃ L, cutVideoChunks (plannerFuel 75 30 5) 75 30 5 = some L ∧
      L.length ≤ (⌈(75 : ℚ) / ((30 : ℚ) - (5 : ℚ))⌉).toNat) ∧
    cutVideoChunks 11 75 30 30 = none :=
  ⟨c10_planner_termination.1 75 30 5 (by norm_num) (by norm_num) (by norm_num)
      (by norm_num),
   c10_planner_termination.2 75 30 30 (le_refl _) (by norm_num) (by norm_num) 11⟩
